import Mathlib

/-!
Verification of the arXiv daily-paper pipeline (`daily_arxiv.py`): the
code-link resolver chain, the retrying HTTP layer, the persisted record
store with merge and backfill, and the markdown renderer.  Python strings
are modelled as `List Char`, dictionaries as association lists in
insertion order, and network calls as oracle parameters.
-/

set_option maxHeartbeats 1000000

/-- Python strings are modelled as lists of characters. -/
abbrev Str := List Char

/-- Convert a Lean string literal to the `Str` model. -/
def strL (s : String) : Str := s.toList

/-- Python's `pat in s` substring test. -/
def containsSub (pat : Str) : Str → Bool
  | [] => pat.isEmpty
  | c :: rest => pat.isPrefixOf (c :: rest) || containsSub pat rest

/-- Worker for `replaceAll`; the fuel starts at the string length and
dominates it throughout, so it never runs out. -/
def replaceAllAux (pat rep : Str) : Nat → Str → Str
  | _, [] => []
  | 0, s => s
  | fuel + 1, c :: rest =>
    if pat.isPrefixOf (c :: rest) then
      rep ++ replaceAllAux pat rep fuel (rest.drop (pat.length - 1))
    else
      c :: replaceAllAux pat rep fuel rest

/-- Python's `s.replace(pat, rep)`: left-to-right, non-overlapping. -/
def replaceAll (pat rep : Str) (s : Str) : Str :=
  replaceAllAux pat rep s.length s

/-- Python `str.strip()` whitespace characters. -/
def isPySpace (c : Char) : Bool :=
  c = ' ' || c = '\t' || c = '\n' || c = '\x0d' || c = '\x0b' || c = '\x0c'

/-- Python's `s.strip()`. -/
def pyStrip (s : Str) : Str :=
  ((s.dropWhile isPySpace).reverse.dropWhile isPySpace).reverse

/- ======================= Outbound request layer ======================= -/

/-- Outcome of one underlying `requests.get` attempt: an HTTP status code,
or a raised transport exception. -/
inductive FetchOutcome where
  | status (code : Nat)
  | exc
deriving DecidableEq

/-- The retry loop of `http_get`, with `fuel` remaining attempts and the
next attempt index `i`.  An attempt succeeds only when its status is HTTP
200; any other status or a transport exception falls through to the next
attempt.  Returns the index of the first successful attempt, if any,
together with the list of attempt indices flagged with the distinct 403
log message. -/
def httpGetAux (attempts : Nat → FetchOutcome) : Nat → Nat → Option Nat × List Nat
  | _, 0 => (none, [])
  | i, fuel + 1 =>
    if attempts i = .status 200 then (some i, [])
    else
      let r := httpGetAux attempts (i + 1) fuel
      (r.1, (if attempts i = .status 403 then [i] else []) ++ r.2)

/-- `http_get(url, ..., retries)`: up to `retries + 1` attempts, success
only on HTTP 200, `none` (Python `None`) after exhausting attempts. -/
def http_get (attempts : Nat → FetchOutcome) (retries : Nat) : Option Nat × List Nat :=
  httpGetAux attempts 0 (retries + 1)

/- ======================= Identifier canonicalization ======================= -/

/-- `get_daily_papers` version stripping:
`ver_pos = paper_id.find('v'); paper_key = paper_id if ver_pos == -1 else
paper_id[:ver_pos]`. -/
def paperKeyOfId (paper_id : Str) : Str :=
  match paper_id.findIdx? (fun c => c = 'v') with
  | none => paper_id
  | some i => paper_id.take i

/-- Whether the first character of a string is a decimal digit. -/
def headIsDigit : Str → Bool
  | [] => false
  | c :: _ => c.isDigit

/-- Worker for `re.sub(r'v\d+', '', s)`: when `skip` is set we are inside
the digit run of a match being deleted; otherwise a `v` followed by a
digit starts a new deleted match and every other character is kept. -/
def svAux : Bool → Str → Str
  | _, [] => []
  | skip, c :: rest =>
    if skip && c.isDigit then svAux true rest
    else if decide (c = 'v') && headIsDigit rest then svAux true rest
    else c :: svAux false rest

/-- `re.sub(r'v\d+', '', s)` used by `parse_arxiv_string`: delete each
leftmost occurrence of a `v` followed by a maximal nonempty digit run. -/
def stripVersionSub (s : Str) : Str := svAux false s

/-- A string with no `v`-followed-by-digit occurrence (a fixed point of
`stripVersionSub`). -/
def noVerOcc : Str → Bool
  | [] => true
  | c :: rest => !(decide (c = 'v') && headIsDigit rest) && noVerOcc rest

/-- A request oracle in which every attempt raises a transport error. -/
def attemptsAllFail : Nat → FetchOutcome := fun _ => .exc

/- ======================= Code-link resolver chain ======================= -/

/-- The three GitHub fallback stages inside `find_code_repo` — title
phrase search in readme/description, identifier search, code search —
combined with Python `or` (first non-`None` wins).  Each stage's network
interaction is abstracted into its `Option` outcome. -/
def find_code_repo (s2 s3 s4 : Option Str) : Option Str :=
  (s2.orElse fun _ => s3).orElse fun _ => s4

/-- The full resolver chain of `get_daily_papers`: `repo_url =
get_repo_from_hf(...)`, and only `if repo_url is None` the GitHub
fallbacks `find_code_repo(...) or get_code_link(title) or
get_code_link(key)`. -/
def resolveRepoUrl (hf s2 s3 s4 s5 s6 : Option Str) : Option Str :=
  match hf with
  | some u => some u
  | none => ((find_code_repo s2 s3 s4).orElse fun _ => s5).orElse fun _ => s6

/-- Instrumented first-success chain: the result together with the number
of stages invoked.  A stage is invoked exactly when every earlier stage
returned the absent sentinel. -/
def resolveChain : List (Option Str) → Option Str × Nat
  | [] => (none, 0)
  | s :: rest =>
    match s with
    | some u => (some u, 1)
    | none =>
      let r := resolveChain rest
      (r.1, r.2 + 1)

/- ======================= Record store ======================= -/

/-- A topic's Python dict from paper identifier to serialized record, as
an association list in insertion order. -/
abbrev Papers := List (Str × Str)

/-- The persisted store: a Python dict from topic name to `Papers`. -/
abbrev Store := List (Str × Papers)

/-- Python `d[k] = v`: overwrite the value in place if the key is
present, append the new pair otherwise. -/
def setKey {β : Type} (d : List (Str × β)) (k : Str) (v : β) : List (Str × β) :=
  if d.any (fun p => p.1 = k) then
    d.map (fun p => if p.1 = k then (k, v) else p)
  else
    d ++ [(k, v)]

/-- Python `d.get(k)`: first entry with the given key. -/
def getKey {β : Type} (d : List (Str × β)) (k : Str) : Option β :=
  (d.find? (fun p => p.1 = k)).map Prod.snd

/-- Python `d.update(new)`: key-by-key right-biased union. -/
def dictUpdate {β : Type} (d new : List (Str × β)) : List (Str × β) :=
  new.foldl (fun acc p => setKey acc p.1 p.2) d

/-- One merge step of `update_json_file`: `if keyword in json_data.keys():
json_data[keyword].update(papers) else: json_data[keyword] = papers`. -/
def mergeTopic (jd : Store) (kp : Str × Papers) : Store :=
  if jd.any (fun p => p.1 = kp.1) then
    setKey jd kp.1 (dictUpdate ((getKey jd kp.1).getD []) kp.2)
  else
    jd ++ [kp]

/-- `update_json_file(filename, data_dict)` on the loaded store: for each
discovery batch element, fold each of its topics into the store. -/
def update_json_file (m : Store) (data_dict : List Store) : Store :=
  data_dict.foldl (fun jd data => data.foldl mergeTopic jd) m

/-- Two-level lookup: the record of paper `pid` under topic `kw`. -/
def lookupPaper (s : Store) (kw pid : Str) : Option Str :=
  (getKey s kw).bind fun tp => getKey tp pid

/-- Every entry of `d` whose key is `k` carries exactly the value `v`. -/
def agreeKey {β : Type} (d : List (Str × β)) (k : Str) (v : β) : Prop :=
  ∀ q ∈ d, q.1 = k → q = (k, v)

/- ======================= Backfill (update_paper_links) ======================= -/

/-- Python `s.split("|")`: split at every bar, keeping empty parts. -/
def splitBar : Str → List Str
  | [] => [[]]
  | c :: rest =>
    if c = '|' then [] :: splitBar rest
    else
      match splitBar rest with
      | h :: t => (c :: h) :: t
      | [] => [[c]]

/-- `re.search(r'\\[(.*?)\\]', s)`: group 1 of the leftmost, lazy bracket
match (a `]` must follow the `[` on the same line). -/
def bracketGroup : Str → Option Str
  | [] => none
  | c :: rest =>
    if c = '[' then
      let pre := rest.takeWhile (fun x => decide (x ≠ ']') && decide (x ≠ '\n'))
      if (rest.drop pre.length).head? = some ']' then some pre
      else bracketGroup rest
    else bracketGroup rest

/-- The fields `parse_arxiv_string` extracts from a serialized record. -/
structure ParsedRecord where
  date : Str
  title : Str
  authors : Str
  arxivId : Str
  code : Str
  pdfField : Str
deriving DecidableEq

/-- `parse_arxiv_string(s)`: split on `|`, strip fields 1-5, pull the
identifier out of the markdown link of the PDF field, drop its version.
`none` models the `IndexError` raised (and caught by the caller) when the
record has fewer than six parts. -/
def parse_arxiv_string (s : Str) : Option ParsedRecord :=
  let parts := splitBar s
  if 6 ≤ parts.length then
    let pdfField := pyStrip (parts.getD 4 [])
    let arxivId0 :=
      match bracketGroup pdfField with
      | some g => pyStrip g
      | none => pdfField
    some ⟨pyStrip (parts.getD 1 []), pyStrip (parts.getD 2 []),
      pyStrip (parts.getD 3 []), stripVersionSub arxivId0,
      pyStrip (parts.getD 5 []), pdfField⟩
  else none

/-- `"|{}|{}|{}|{}|{}|\n".format(date, title, authors, pdf_field, code)` —
the normalized serialization `update_paper_links` writes back. -/
def rebuildRecord (r : ParsedRecord) : Str :=
  '|' :: (r.date ++ '|' :: (r.title ++ '|' :: (r.authors ++ '|' ::
    (r.pdfField ++ '|' :: (r.code ++ ['|', '\n'])))))

/-- The literal `'|null|'` marker of an unresolved code link. -/
def nullCell : Str := strL "|null|"

/-- The replacement `'|**[link]({repo_url})**|'` for a found link. -/
def linkCell (url : Str) : Str := strL "|**[link](" ++ url ++ strL ")**|"

/-- One record step of the `update_paper_links` loop: parse, rewrite in
normalized form, and — only when the rewritten record still contains the
`|null|` marker — invoke the resolver chain once, substituting the found
link on success.  A parse failure leaves the record unmodified.  Returns
the new record and the number of resolver-chain invocations (0 or 1). -/
def backfillRecord (resolve : Str → Str → Str → Option Str) (contents : Str) :
    Str × Nat :=
  match parse_arxiv_string contents with
  | none => (contents, 0)
  | some r =>
    let normalized := rebuildRecord r
    if containsSub nullCell normalized then
      match resolve r.arxivId r.title r.authors with
      | some url => (replaceAll nullCell (linkCell url) normalized, 1)
      | none => (normalized, 1)
    else (normalized, 0)

/-- The inner loop of `update_paper_links` over one topic's records
(in-place value reassignment on a dict keeps keys and order). -/
def backfillTopic (resolve : Str → Str → Str → Option Str) (tp : Papers) :
    Papers × Nat :=
  tp.foldl
    (fun acc pr =>
      let r := backfillRecord resolve pr.2
      (acc.1 ++ [(pr.1, r.1)], acc.2 + r.2))
    ([], 0)

/-- `update_paper_links` over the loaded store: every topic's records are
processed in order; the second component counts resolver invocations. -/
def update_paper_links (resolve : Str → Str → Str → Option Str) (m : Store) :
    Store × Nat :=
  m.foldl
    (fun acc kv =>
      let t := backfillTopic resolve kv.2
      (acc.1 ++ [(kv.1, t.1)], acc.2 + t.2))
    ([], 0)

/-- A record that parses and whose normalized form carries a resolved
code link (no `|null|` cell). -/
def resolvedRecord (contents : Str) : Bool :=
  match parse_arxiv_string contents with
  | some r => !(containsSub nullCell (rebuildRecord r))
  | none => false

/-- The normalized serialized form a parseable record is rewritten to;
an unparseable record is kept as is. -/
def normalizeRecord (contents : Str) : Str :=
  match parse_arxiv_string contents with
  | some r => rebuildRecord r
  | none => contents

/-- The `get_daily_papers` record for a paper with a resolved code link:
`"|**{}**|**{}**|{} et.al.|[{}]({})|**[link]({})**|\\n"`. -/
def mkRecordResolved (update_time title author key url repo : Str) : Str :=
  strL "|**" ++ update_time ++ strL "**|**" ++ title ++ strL "**|" ++ author
    ++ strL " et.al.|[" ++ key ++ strL "](" ++ url ++ strL ")|**[link]("
    ++ repo ++ strL ")**|\n"

/-- The `get_daily_papers` record when every resolver stage returned the
absent sentinel: `"|**{}**|**{}**|{} et.al.|[{}]({})|null|\\n"`. -/
def mkRecordNull (update_time title author key url : Str) : Str :=
  strL "|**" ++ update_time ++ strL "**|**" ++ title ++ strL "**|" ++ author
    ++ strL " et.al.|[" ++ key ++ strL "](" ++ url ++ strL ")|null|\n"

/- ======================= Renderer: pretty_math ======================= -/

/-- Index of the last `$` in a string, if any. -/
def lastDollar : Str → Option Nat
  | [] => none
  | c :: rest =>
    match lastDollar rest with
    | some k => some (k + 1)
    | none => if c = '$' then some 0 else none

/-- `re.search(r"\$.*\$", s)`: scan for the leftmost `$` that has another
`$` later on the same line; the greedy `.*` (which does not cross a
newline) extends the match to the last such `$`.  Returns the half-open
match span. -/
def dollarSpanAux : Nat → Str → Option (Nat × Nat)
  | _, [] => none
  | i, c :: rest =>
    if c = '$' then
      match lastDollar (rest.takeWhile (fun x => decide (x ≠ '\n'))) with
      | some k => some (i, i + k + 2)
      | none => dollarSpanAux (i + 1) rest
    else dollarSpanAux (i + 1) rest

/-- The span of `re.search(r"\$.*\$", s)`. -/
def dollarSpan (s : Str) : Option (Nat × Nat) := dollarSpanAux 0 s

/-- The string `pretty_math` assembles around a matched span:
`s[:start] + f"{space_trail}${group[1:-1].strip()}${space_leading}" +
s[stop:]`, with one space inserted next to an adjacent character that is
neither a space nor the emphasis marker `*`. -/
def mathAssemble (s : Str) (ms me : Nat) : Str :=
  let before := s.take ms
  let after := s.drop me
  let inner := (s.drop (ms + 1)).take (me - ms - 2)
  let space_trail :=
    match before.getLast? with
    | some c => if c ≠ ' ' ∧ c ≠ '*' then [' '] else []
    | none => []
  let space_leading :=
    match after.head? with
    | some c => if c ≠ ' ' ∧ c ≠ '*' then [' '] else []
    | none => []
  before ++ space_trail ++ '$' :: (pyStrip inner ++ '$' :: (space_leading ++ after))

/-- `pretty_math(s)` of `json_to_md`. -/
def pretty_math (s : Str) : Str :=
  match dollarSpan s with
  | none => s
  | some (ms, me) => mathAssemble s ms me

/-- Modelled from the spec: the claim reads "the first inline math span
delimited by a pair of `$` marks" — the first `$` paired with the *next*
`$` on the line (a lazy match), the rest of the line untouched. -/
def firstDollarSpanAux : Nat → Str → Option (Nat × Nat)
  | _, [] => none
  | i, c :: rest =>
    if c = '$' then
      match (rest.takeWhile (fun x => decide (x ≠ '\n'))).findIdx? (fun x => x = '$') with
      | some k => some (i, i + k + 2)
      | none => firstDollarSpanAux (i + 1) rest
    else firstDollarSpanAux (i + 1) rest

/-- Modelled from the spec: `pretty_math` as the claim describes it,
normalizing only the first (lazy) math span. -/
def pretty_math_first_span (s : Str) : Str :=
  match firstDollarSpanAux 0 s with
  | none => s
  | some (ms, me) => mathAssemble s ms me

/- ======================= Renderer: json_to_md ======================= -/

/-- The presentation flags of `json_to_md`. -/
structure MdOptions where
  to_web : Bool
  use_title : Bool
  use_tc : Bool
  show_badge : Bool
  use_b2t : Bool

/-- `DateNow = str(datetime.date.today()).replace('-', '.')`. -/
def dateNowStr (today : Str) : Str :=
  today.map (fun c => if c = '-' then '.' else c)

/-- `sort_papers(papers)`: keys sorted descending (a stable
`list.sort(reverse=True)` on identifier strings), each key paired with
its stored record. -/
def sort_papers (papers : Papers) : Papers :=
  (List.insertionSort (fun a b : Str => a ≥ b) (papers.map Prod.fst)).filterMap
    (fun k => (getKey papers k).map (fun v => (k, v)))

/-- The gitpage front matter written when `use_title and to_web`. -/
def mdLayoutHeader (opts : MdOptions) : Str :=
  if opts.use_title && opts.to_web then strL "---\nlayout: default\n---\n\n" else []

/-- The four badge lines written when `show_badge`. -/
def mdBadges : Str :=
  strL "[![Contributors][contributors-shield]][contributors-url]\n"
  ++ strL "[![Forks][forks-shield]][forks-url]\n"
  ++ strL "[![Stargazers][stars-shield]][stars-url]\n"
  ++ strL "[![Issues][issues-shield]][issues-url]\n\n"

/-- The badge reference definitions written at the end when `show_badge`. -/
def mdBadgeRefs : Str :=
  strL "[contributors-shield]: https://img.shields.io/github/"
  ++ strL "contributors/Vincentqyw/cv-arxiv-daily.svg?style=for-the-badge\n"
  ++ strL "[contributors-url]: https://github.com/Vincentqyw/"
  ++ strL "cv-arxiv-daily/graphs/contributors\n"
  ++ strL "[forks-shield]: https://img.shields.io/github/forks/Vincentqyw/"
  ++ strL "cv-arxiv-daily.svg?style=for-the-badge\n"
  ++ strL "[forks-url]: https://github.com/Vincentqyw/"
  ++ strL "cv-arxiv-daily/network/members\n"
  ++ strL "[stars-shield]: https://img.shields.io/github/stars/Vincentqyw/"
  ++ strL "cv-arxiv-daily.svg?style=for-the-badge\n"
  ++ strL "[stars-url]: https://github.com/Vincentqyw/"
  ++ strL "cv-arxiv-daily/stargazers\n"
  ++ strL "[issues-shield]: https://img.shields.io/github/issues/Vincentqyw/"
  ++ strL "cv-arxiv-daily.svg?style=for-the-badge\n"
  ++ strL "[issues-url]: https://github.com/Vincentqyw/"
  ++ strL "cv-arxiv-daily/issues\n\n"

/-- One table-of-contents entry for a non-empty topic. -/
def tocEntry (keyword : Str) : Str :=
  strL "    <li><a href=#"
  ++ ((keyword.map (fun c => if c = ' ' then '-' else c)).map Char.toLower)
  ++ strL ">" ++ keyword ++ strL "</a></li>\n"

/-- The table of contents written when `use_tc`; empty topics are
skipped by `continue`. -/
def mdToc (data : Store) : Str :=
  strL "<details>\n  <summary>Table of Contents</summary>\n  <ol>\n"
  ++ (data.map (fun kv => if kv.2.isEmpty then [] else tocEntry kv.1)).flatten
  ++ strL "  </ol>\n</details>\n\n"

/-- The per-topic column header, depending on `use_title`/`to_web`. -/
def tableHeader (opts : MdOptions) : Str :=
  if opts.use_title then
    if opts.to_web = false then
      strL "|Publish Date|Title|Authors|PDF|Code|\n|---|---|---|---|---|\n"
    else
      strL "| Publish Date | Title | Authors | PDF | Code |\n"
      ++ strL "|:---------|:-----------------------|:---------|:------|:------|\n"
  else []

/-- `f"#Updated on {DateNow}".replace(' ', '-').replace('.', '').lower()`. -/
def b2tAnchor (dateNow : Str) : Str :=
  (((strL "#Updated on " ++ dateNow).map
      (fun c => if c = ' ' then '-' else c)).filter
    (fun c => decide (c ≠ '.'))).map Char.toLower

/-- The back-to-top link written when `use_b2t`. -/
def mdB2T (dateNow : Str) : Str :=
  strL "<p align=right>(<a href=" ++ b2tAnchor dateNow
  ++ strL ">back to top</a>)</p>\n\n"

/-- One topic's section: heading, optional table header, the records in
descending-identifier order (each passed through `pretty_math`), and the
optional back-to-top link; a topic with no records is skipped. -/
def topicSection (opts : MdOptions) (dateNow : Str) (kv : Str × Papers) : Str :=
  if kv.2.isEmpty then []
  else
    strL "## " ++ kv.1 ++ strL "\n\n"
    ++ tableHeader opts
    ++ ((sort_papers kv.2).map (fun pr => pretty_math pr.2)).flatten
    ++ strL "\n"
    ++ (if opts.use_b2t then mdB2T dateNow else [])

/-- `json_to_md`: the full rendered document.  `prior` is the previous
content of the output file; `open(md_filename, "w+")` truncates it before
anything is written, so it never reaches the output. -/
def json_to_md (prior : Str) (data : Store) (opts : MdOptions) (today : Str) : Str :=
  mdLayoutHeader opts
  ++ (if opts.show_badge then mdBadges else [])
  ++ (if opts.use_title then strL "## Updated on " ++ dateNowStr today ++ strL "\n"
      else strL "> Updated on " ++ dateNowStr today ++ strL "\n")
  ++ strL "> Usage instructions: [here](./docs/README.md#usage)\n\n"
  ++ (if opts.use_tc then mdToc data else [])
  ++ (data.map (topicSection opts (dateNowStr today))).flatten
  ++ (if opts.show_badge then mdBadgeRefs else [])

/-- Modelled from the spec: a store with zero topics "renders
headers/badges only" — front matter, badges, the updated-on header, the
usage line, an entry-less table of contents and the badge references. -/
def emptyStoreRender (opts : MdOptions) (today : Str) : Str :=
  mdLayoutHeader opts
  ++ (if opts.show_badge then mdBadges else [])
  ++ (if opts.use_title then strL "## Updated on " ++ dateNowStr today ++ strL "\n"
      else strL "> Updated on " ++ dateNowStr today ++ strL "\n")
  ++ strL "> Usage instructions: [here](./docs/README.md#usage)\n\n"
  ++ (if opts.use_tc then
        strL "<details>\n  <summary>Table of Contents</summary>\n  <ol>\n"
        ++ strL "  </ol>\n</details>\n\n"
      else [])
  ++ (if opts.show_badge then mdBadgeRefs else [])

/- ======================= Store loading ======================= -/

/-- How a store load can fail. -/
inductive LoadError where
  | fileNotFound
  | jsonError
deriving DecidableEq

/-- The load sequence shared verbatim by `update_json_file`,
`update_paper_links` and `json_to_md`: `open(filename, "r")` (raises
`FileNotFoundError` when the path is absent, modelled by the `none`
file), `content = f.read()`, and `m = {} if not content else
json.loads(content)`.  JSON decoding is the oracle `parseJson`; its
failure raises. -/
def loadStore (parseJson : Str → Option Store) : Option Str → Except LoadError Store
  | none => .error .fileNotFound
  | some content =>
    if content.isEmpty then .ok []
    else
      match parseJson content with
      | some m => .ok m
      | none => .error .jsonError

/- ======================= Theorems ======================= -/

theorem paperKeyOfId_eq_of_none (s : Str)
    (h : s.findIdx? (fun c => c = 'v') = none) : paperKeyOfId s = s := by
  unfold paperKeyOfId
  rw [h]

theorem paperKeyOfId_eq_of_some (s : Str) (i : Nat)
    (h : s.findIdx? (fun c => c = 'v') = some i) : paperKeyOfId s = s.take i := by
  unfold paperKeyOfId
  rw [h]

theorem findIdxV_none_iff (s : Str) :
    s.findIdx? (fun c => c = 'v') = none ↔ 'v' ∉ s := by
  induction s with
  | nil => simp
  | cons c rest ih =>
    rw [List.findIdx?_cons]
    by_cases hc : c = 'v'
    · subst hc
      simp
    · have hc' : 'v' ≠ c := fun h => hc h.symm
      simp [hc, hc', ih]

theorem not_mem_paperKeyOfId (s : Str) : 'v' ∉ paperKeyOfId s := by
  induction s with
  | nil => simp [paperKeyOfId]
  | cons c rest ih =>
    by_cases hc : c = 'v'
    · have h0 : (c :: rest).findIdx? (fun c => c = 'v') = some 0 := by
        rw [List.findIdx?_cons]
        simp [hc]
      rw [paperKeyOfId_eq_of_some _ 0 h0]
      simp
    · cases hrest : rest.findIdx? (fun c => c = 'v') with
      | none =>
        have h0 : (c :: rest).findIdx? (fun c => c = 'v') = none := by
          rw [List.findIdx?_cons]
          simp [hc, hrest]
        rw [paperKeyOfId_eq_of_none _ h0]
        intro hmem
        rcases List.mem_cons.1 hmem with h | h
        · exact hc h.symm
        · exact (findIdxV_none_iff rest).1 hrest h
      | some i =>
        have h0 : (c :: rest).findIdx? (fun c => c = 'v') = some (i + 1) := by
          rw [List.findIdx?_cons]
          simp [hc, hrest]
        rw [paperKeyOfId_eq_of_some _ _ h0, List.take_succ_cons]
        rw [paperKeyOfId_eq_of_some rest i hrest] at ih
        intro hmem
        rcases List.mem_cons.1 hmem with h | h
        · exact hc h.symm
        · exact ih h

theorem findIdxV_append (a d : Str) (ha : 'v' ∉ a) :
    (a ++ 'v' :: d).findIdx? (fun c => c = 'v') = some a.length := by
  induction a with
  | nil =>
    rw [List.nil_append, List.findIdx?_cons]
    simp
  | cons c a' ih =>
    have hc : ¬ c = 'v' := fun h => ha (h ▸ List.mem_cons_self c a')
    have ha' : 'v' ∉ a' := fun h => ha (List.mem_cons_of_mem c h)
    rw [List.cons_append, List.findIdx?_cons]
    simp [hc, ih ha']

theorem headIsDigit_svAux_true (l : Str) : headIsDigit (svAux true l) = false := by
  induction l with
  | nil => rfl
  | cons c rest ih =>
    rw [svAux]
    by_cases hd : c.isDigit
    · rw [if_pos (by simp [hd])]
      exact ih
    · rw [if_neg (by simp [hd])]
      by_cases hv : (decide (c = 'v') && headIsDigit rest) = true
      · rw [if_pos hv]
        exact ih
      · rw [if_neg hv]
        simpa [headIsDigit] using hd

theorem headIsDigit_svAux_false (l : Str) (h : headIsDigit l = false) :
    headIsDigit (svAux false l) = false := by
  cases l with
  | nil => rfl
  | cons c rest =>
    rw [svAux]
    rw [if_neg (by simp)]
    by_cases hv : (decide (c = 'v') && headIsDigit rest) = true
    · rw [if_pos hv]
      exact headIsDigit_svAux_true rest
    · rw [if_neg hv]
      simpa [headIsDigit] using h

theorem noVerOcc_svAux (l : Str) : ∀ skip, noVerOcc (svAux skip l) = true := by
  induction l with
  | nil => intro skip; rfl
  | cons c rest ih =>
    intro skip
    rw [svAux]
    by_cases h1 : (skip && c.isDigit) = true
    · rw [if_pos h1]
      exact ih true
    · rw [if_neg h1]
      by_cases h2 : (decide (c = 'v') && headIsDigit rest) = true
      · rw [if_pos h2]
        exact ih true
      · rw [if_neg h2]
        rw [noVerOcc]
        rw [ih false, Bool.and_true]
        by_cases hc : c = 'v'
        · have hd : headIsDigit rest = false := by
            by_contra hdc
            rw [Bool.not_eq_false] at hdc
            exact h2 (by simp [hc, hdc])
          rw [headIsDigit_svAux_false rest hd]
          simp
        · simp [hc]

theorem svAux_of_noVerOcc (l : Str) (h : noVerOcc l = true) :
    svAux false l = l := by
  induction l with
  | nil => rfl
  | cons c rest ih =>
    rw [noVerOcc] at h
    simp only [Bool.and_eq_true, Bool.not_eq_true'] at h
    obtain ⟨h1, h2⟩ := h
    rw [svAux, if_neg (by simp), if_neg (by simp [h1]), ih h2]

/-- C6 counterexample: the old-style identifier `solv-int/9701001` carries
no trailing version suffix, yet `get_daily_papers` canonicalization
truncates it at the *first* `v` of `solv-int`, producing `sol`; with a
`v1` suffix attached it likewise strips far more than the suffix. -/
theorem canonical_key_counterexample :
    paperKeyOfId (strL "solv-int/9701001") = strL "sol" ∧
    paperKeyOfId (strL "solv-int/9701001") ≠ strL "solv-int/9701001" ∧
    paperKeyOfId (strL "solv-int/9701001v1") ≠ strL "solv-int/9701001" := by
  refine ⟨by decide, by decide, by decide⟩

/-- C6 (amended): the `get_daily_papers` canonical key truncates at the
*first* `v` of the identifier.  Hence for identifiers whose only `v`
begins the trailing version suffix it strips exactly that suffix, an
identifier containing no `v` at all is returned unchanged, and both this
canonicalization and the `parse_arxiv_string` one (`re.sub(r'v\d+', '')`)
are stable under repeated application. -/
theorem canonical_key_amended :
    (∀ a d : Str, 'v' ∉ a → paperKeyOfId (a ++ 'v' :: d) = a)
    ∧ (∀ s : Str, 'v' ∉ s → paperKeyOfId s = s)
    ∧ (∀ s : Str, paperKeyOfId (paperKeyOfId s) = paperKeyOfId s)
    ∧ (∀ s : Str, stripVersionSub (stripVersionSub s) = stripVersionSub s) := by
  have hb : ∀ s : Str, 'v' ∉ s → paperKeyOfId s = s := by
    intro s hs
    exact paperKeyOfId_eq_of_none s ((findIdxV_none_iff s).2 hs)
  refine ⟨?_, hb, ?_, ?_⟩
  · intro a d ha
    rw [paperKeyOfId_eq_of_some _ _ (findIdxV_append a d ha)]
    exact List.take_left a ('v' :: d)
  · intro s
    exact hb _ (not_mem_paperKeyOfId s)
  · intro s
    exact svAux_of_noVerOcc (svAux false s) (noVerOcc_svAux s false)

/-- Witness for the amended canonicalization claim at the spec's own
example `2108.09112v1 ↦ 2108.09112`. -/
theorem canonical_key_amended_witness :
    paperKeyOfId (strL "2108.09112" ++ 'v' :: strL "1") = strL "2108.09112" :=
  canonical_key_amended.1 (strL "2108.09112") (strL "1") (by decide)



theorem httpGetAux_some (a : Nat → FetchOutcome) (fuel : Nat) :
    ∀ s i, (httpGetAux a s fuel).1 = some i →
      s ≤ i ∧ i < s + fuel ∧ a i = .status 200 ∧
        ∀ j, s ≤ j → j < i → a j ≠ .status 200 := by
  induction fuel with
  | zero => intro s i h; simp [httpGetAux] at h
  | succ f ih =>
    intro s i h
    rw [httpGetAux] at h
    by_cases hs : a s = .status 200
    · rw [if_pos hs] at h
      simp only [Option.some.injEq] at h
      subst h
      exact ⟨le_refl _, by omega, hs, fun j hj1 hj2 => by omega⟩
    · rw [if_neg hs] at h
      obtain ⟨h1, h2, h3, h4⟩ := ih (s + 1) i h
      refine ⟨by omega, by omega, h3, ?_⟩
      intro j hj1 hj2
      rcases Nat.eq_or_lt_of_le hj1 with rfl | hj
      · exact hs
      · exact h4 j hj hj2

theorem httpGetAux_none (a : Nat → FetchOutcome) (fuel : Nat) :
    ∀ s, (∀ i, s ≤ i → i < s + fuel → a i ≠ .status 200) →
      (httpGetAux a s fuel).1 = none := by
  induction fuel with
  | zero => intro s _; simp [httpGetAux]
  | succ f ih =>
    intro s hall
    rw [httpGetAux]
    rw [if_neg (hall s (le_refl _) (by omega))]
    exact ih (s + 1) (fun i h1 h2 => hall i (by omega) (by omega))

theorem httpGetAux_flags (a : Nat → FetchOutcome) (fuel : Nat) :
    ∀ s, (httpGetAux a s fuel).2 =
      (List.range' s fuel).filter
        (fun i => decide (a i = .status 403 ∧ ∀ j, s ≤ j → j < i → a j ≠ .status 200)) := by
  induction fuel with
  | zero => intro s; simp [httpGetAux]
  | succ f ih =>
    intro s
    have hrange : List.range' s (f + 1) = s :: List.range' (s + 1) f := rfl
    rw [httpGetAux, hrange, List.filter_cons]
    by_cases hs : a s = .status 200
    · rw [if_pos hs]
      have hhead : (decide (a s = .status 403 ∧ ∀ j, s ≤ j → j < s → a j ≠ .status 200)) = false := by
        simp only [decide_eq_false_iff_not]
        rintro ⟨h1, -⟩
        rw [hs] at h1
        injection h1 with h1
        omega
      rw [hhead]
      simp only [Bool.false_eq_true, if_false]
      have htail : (List.range' (s + 1) f).filter
          (fun i => decide (a i = .status 403 ∧ ∀ j, s ≤ j → j < i → a j ≠ .status 200)) = [] := by
        apply List.filter_eq_nil_iff.2
        intro i hi
        simp only [List.mem_range'] at hi
        simp only [decide_eq_true_eq]
        rintro ⟨-, h2⟩
        exact h2 s (le_refl _) (by omega) hs
      rw [htail]
    · rw [if_neg hs]
      have htail : ((List.range' (s + 1) f).filter
            (fun i => decide (a i = .status 403 ∧ ∀ j, s ≤ j → j < i → a j ≠ .status 200))) =
          ((List.range' (s + 1) f).filter
            (fun i => decide (a i = .status 403 ∧ ∀ j, s + 1 ≤ j → j < i → a j ≠ .status 200))) := by
        apply List.filter_congr
        intro i hi
        simp only [List.mem_range'] at hi
        rw [decide_eq_decide]
        constructor
        · rintro ⟨h1, h2⟩
          exact ⟨h1, fun j hj1 hj2 => h2 j (by omega) hj2⟩
        · rintro ⟨h1, h2⟩
          refine ⟨h1, fun j hj1 hj2 => ?_⟩
          rcases Nat.eq_or_lt_of_le hj1 with rfl | hj
          · exact hs
          · exact h2 j hj hj2
      by_cases h403 : a s = .status 403
      · have hhead : (decide (a s = .status 403 ∧ ∀ j, s ≤ j → j < s → a j ≠ .status 200)) = true := by
          simp only [decide_eq_true_eq]
          exact ⟨h403, fun j hj1 hj2 => by omega⟩
        rw [hhead, if_pos h403]
        simp only [if_true, List.singleton_append]
        rw [ih (s + 1), htail]
      · have hhead : (decide (a s = .status 403 ∧ ∀ j, s ≤ j → j < s → a j ≠ .status 200)) = false := by
          simp only [decide_eq_false_iff_not]
          rintro ⟨h1, -⟩
          exact h403 h1
        rw [hhead, if_neg h403]
        simp only [Bool.false_eq_true, if_false, List.nil_append]
        rw [ih (s + 1), htail]

/-- C7: for every `retries ≥ 0`, `http_get` makes at most `retries + 1`
attempts, treats only an HTTP 200 response as success, returns the first
successful response, returns the absent sentinel (`None`) after
exhausting all attempts instead of raising, and flags a 403 distinctly
(the dedicated error log) while retrying it like any other non-200
outcome. -/
theorem http_get_retry_contract (attempts : Nat → FetchOutcome) (retries : Nat) :
    (∀ i, (http_get attempts retries).1 = some i →
        i < retries + 1 ∧ attempts i = .status 200 ∧
          ∀ j, j < i → attempts j ≠ .status 200)
    ∧ ((∀ i, i < retries + 1 → attempts i ≠ .status 200) →
        (http_get attempts retries).1 = none)
    ∧ (http_get attempts retries).2 =
        (List.range (retries + 1)).filter
          (fun i => decide (attempts i = .status 403 ∧
            ∀ j, j < i → attempts j ≠ .status 200)) := by
  refine ⟨?_, ?_, ?_⟩
  · intro i h
    obtain ⟨-, h2, h3, h4⟩ := httpGetAux_some attempts (retries + 1) 0 i h
    exact ⟨by omega, h3, fun j hj => h4 j (by omega) hj⟩
  · intro hall
    exact httpGetAux_none attempts (retries + 1) 0 (fun i _ h2 => hall i (by omega))
  · show (httpGetAux attempts 0 (retries + 1)).2 = _
    rw [httpGetAux_flags attempts (retries + 1) 0, List.range_eq_range']
    apply List.filter_congr
    intro i _
    rw [decide_eq_decide]
    constructor
    · rintro ⟨h1, h2⟩
      exact ⟨h1, fun j hj => h2 j (by omega) hj⟩
    · rintro ⟨h1, h2⟩
      exact ⟨h1, fun j _ hj => h2 j hj⟩

/-- Witness for the `http_get` contract: with transport failures on every
attempt and `retries = 2`, the result is the absent sentinel. -/
theorem http_get_retry_contract_witness : (http_get attemptsAllFail 2).1 = none :=
  (http_get_retry_contract attemptsAllFail 2).2.1 (by decide)

theorem resolveChain_invoked (L : List (Option Str)) :
    ∀ i, i < (resolveChain L).2 ↔ i < L.length ∧ ∀ j, j < i → L[j]? = some none := by
  induction L with
  | nil => intro i; simp [resolveChain]
  | cons s rest ih =>
    intro i
    cases s with
    | some u =>
      simp only [resolveChain]
      constructor
      · intro hi
        have hi0 : i = 0 := by omega
        subst hi0
        exact ⟨by simp, fun j hj => by omega⟩
      · rintro ⟨h1, h2⟩
        by_contra h
        push_neg at h
        have h0 := h2 0 (by omega)
        simp at h0
    | none =>
      cases i with
      | zero =>
        simp only [resolveChain]
        exact ⟨fun _ => ⟨by simp, fun j hj => by omega⟩, fun _ => by omega⟩
      | succ k =>
        simp only [resolveChain]
        constructor
        · intro hk
          have hk' : k < (resolveChain rest).2 := by omega
          obtain ⟨h1, h2⟩ := (ih k).1 hk'
          refine ⟨by simpa using Nat.succ_lt_succ h1, ?_⟩
          intro j hj
          cases j with
          | zero => simp
          | succ j' => simpa using h2 j' (by omega)
        · rintro ⟨h1, h2⟩
          have hk' : k < (resolveChain rest).2 := by
            apply (ih k).2
            refine ⟨by simpa using h1, ?_⟩
            intro j hj
            have hj' := h2 (j + 1) (by omega)
            simpa using hj'
          omega

theorem resolveChain_result (L : List (Option Str)) (u : Str) :
    (resolveChain L).1 = some u ↔
      ∃ i : Nat, L[i]? = some (some u) ∧ ∀ j, j < i → L[j]? = some none := by
  induction L with
  | nil => simp [resolveChain]
  | cons s rest ih =>
    cases s with
    | some v =>
      simp only [resolveChain, Option.some.injEq]
      constructor
      · intro h
        subst h
        exact ⟨0, by simp, fun j hj => by omega⟩
      · rintro ⟨i, h1, h2⟩
        cases i with
        | zero =>
          simp only [List.getElem?_cons_zero, Option.some.injEq] at h1
          exact h1
        | succ k =>
          have h0 := h2 0 (by omega)
          simp at h0
    | none =>
      simp only [resolveChain]
      rw [ih]
      constructor
      · rintro ⟨i, h1, h2⟩
        refine ⟨i + 1, by simpa using h1, ?_⟩
        intro j hj
        cases j with
        | zero => simp
        | succ j' => simpa using h2 j' (by omega)
      · rintro ⟨i, h1, h2⟩
        cases i with
        | zero => simp at h1
        | succ k =>
          refine ⟨k, by simpa using h1, ?_⟩
          intro j hj
          have hj' := h2 (j + 1) (by omega)
          simpa using hj'

theorem resolveChain_fst_eq (hf s2 s3 s4 s5 s6 : Option Str) :
    (resolveChain [hf, s2, s3, s4, s5, s6]).1 = resolveRepoUrl hf s2 s3 s4 s5 s6 := by
  cases hf <;> cases s2 <;> cases s3 <;> cases s4 <;> cases s5 <;> cases s6 <;> rfl

/-- C1: if the hub lookup returns a URL then resolution returns that URL
having invoked only the hub stage; the instrumented chain computes the
same result as the source's `or`-chain; stage `i` is invoked exactly when
every earlier stage returned the absent sentinel; and any returned URL is
the one produced by the first succeeding stage — first success wins, a
later stage never overrides an earlier one. -/
theorem resolver_stage_priority (hf s2 s3 s4 s5 s6 : Option Str) :
    (∀ u, hf = some u →
        resolveRepoUrl hf s2 s3 s4 s5 s6 = some u ∧
        (resolveChain [hf, s2, s3, s4, s5, s6]).2 = 1)
    ∧ (resolveChain [hf, s2, s3, s4, s5, s6]).1 = resolveRepoUrl hf s2 s3 s4 s5 s6
    ∧ (∀ i, i < (resolveChain [hf, s2, s3, s4, s5, s6]).2 ↔
        i < 6 ∧ ∀ j, j < i →
          ([hf, s2, s3, s4, s5, s6] : List (Option Str))[j]? = some none)
    ∧ (∀ u, resolveRepoUrl hf s2 s3 s4 s5 s6 = some u →
        ∃ i : Nat, ([hf, s2, s3, s4, s5, s6] : List (Option Str))[i]? = some (some u) ∧
          ∀ j, j < i →
            ([hf, s2, s3, s4, s5, s6] : List (Option Str))[j]? = some none) := by
  refine ⟨?_, resolveChain_fst_eq hf s2 s3 s4 s5 s6, ?_, ?_⟩
  · rintro u rfl
    exact ⟨rfl, rfl⟩
  · intro i
    simpa using resolveChain_invoked [hf, s2, s3, s4, s5, s6] i
  · intro u h
    rw [← resolveChain_fst_eq] at h
    exact (resolveChain_result _ u).1 h

/-- Witness: with the hub stage succeeding and a later search stage
stubbed to also succeed, the resolver returns the hub URL and invokes
only the hub stage. -/
theorem resolver_stage_priority_witness :
    resolveRepoUrl (some (strL "https://huggingface.co/spaces/org/x"))
        none none none (some (strL "https://github.com/org/y")) none
      = some (strL "https://huggingface.co/spaces/org/x") ∧
    (resolveChain [some (strL "https://huggingface.co/spaces/org/x"),
        none, none, none, some (strL "https://github.com/org/y"), none]).2 = 1 :=
  (resolver_stage_priority _ _ _ _ _ _).1 _ rfl

/-- C5 counterexample: loading from an absent path raises
`FileNotFoundError` (none of the three loaders guards its `open` call);
it does not yield the empty store. -/
theorem load_absent_counterexample :
    loadStore (fun _ => none) none = .error .fileNotFound ∧
    loadStore (fun _ => none) none ≠ .ok ([] : Store) :=
  ⟨rfl, fun h => Except.noConfusion h⟩

/-- C5 (amended): each load performed by the daily merge, the backfill
pass and the renderer — all three share the same inline load sequence —
yields the empty store on an existing but empty file, for every JSON
oracle; an absent file is an error, not an empty store. -/
theorem load_empty_store (parseJson : Str → Option Store) :
    loadStore parseJson (some []) = .ok ([] : Store) ∧
    loadStore parseJson none = .error .fileNotFound :=
  ⟨rfl, rfl⟩

theorem setKey_nil {β : Type} (k : Str) (v : β) :
    setKey ([] : List (Str × β)) k v = [(k, v)] := rfl

theorem anyKey_iff {β : Type} (d : List (Str × β)) (k : Str) :
    (d.any fun p => p.1 = k) = true ↔ k ∈ d.map Prod.fst := by
  constructor
  · intro h
    rcases List.any_eq_true.1 h with ⟨p, hp, hpk⟩
    simp only [decide_eq_true_eq] at hpk
    exact List.mem_map.2 ⟨p, hp, hpk⟩
  · intro h
    rcases List.mem_map.1 h with ⟨p, hp, he⟩
    exact List.any_eq_true.2 ⟨p, hp, by simpa using he⟩

theorem getKey_cons {β : Type} (p : Str × β) (rest : List (Str × β)) (k : Str) :
    getKey (p :: rest) k = if p.1 = k then some p.2 else getKey rest k := by
  by_cases hp : p.1 = k
  · rw [getKey, List.find?_cons_of_pos _ (by simpa using hp), if_pos hp]
    rfl
  · rw [getKey, List.find?_cons_of_neg _ (by simpa using hp), if_neg hp]
    rfl

theorem getKey_append {β : Type} (d e : List (Str × β)) (k : Str) :
    getKey (d ++ e) k = ((getKey d k).or (getKey e k)) := by
  unfold getKey
  rw [List.find?_append]
  cases hd : d.find? (fun p => p.1 = k) with
  | none => simp
  | some q => simp

theorem getKey_eq_none_of_not_mem {β : Type} (d : List (Str × β)) (k : Str)
    (h : k ∉ d.map Prod.fst) : getKey d k = none := by
  induction d with
  | nil => rfl
  | cons p rest ih =>
    rw [getKey_cons]
    have hp : ¬ p.1 = k :=
      fun hc => h (List.mem_map.2 ⟨p, List.mem_cons_self p rest, hc⟩)
    rw [if_neg hp]
    refine ih (fun hm => h ?_)
    rcases List.mem_map.1 hm with ⟨q, hq, he⟩
    exact List.mem_map.2 ⟨q, List.mem_cons_of_mem p hq, he⟩

theorem getKey_isSome_of_mem {β : Type} (d : List (Str × β)) (k : Str)
    (h : k ∈ d.map Prod.fst) : ∃ v, getKey d k = some v := by
  induction d with
  | nil => simp at h
  | cons p rest ih =>
    rw [getKey_cons]
    by_cases hp : p.1 = k
    · exact ⟨p.2, if_pos hp⟩
    · rw [if_neg hp]
      apply ih
      rcases List.mem_map.1 h with ⟨q, hq, he⟩
      rcases List.mem_cons.1 hq with rfl | hq'
      · exact absurd he hp
      · exact List.mem_map.2 ⟨q, hq', he⟩

theorem getKey_of_agree {β : Type} (d : List (Str × β)) (k : Str) (v : β)
    (hmem : k ∈ d.map Prod.fst) (hag : agreeKey d k v) : getKey d k = some v := by
  obtain ⟨w, hw⟩ := getKey_isSome_of_mem d k hmem
  have hfind := hw
  unfold getKey at hfind
  rcases hfw : d.find? (fun p => p.1 = k) with - | q
  · rw [hfw] at hfind
    simp at hfind
  · rw [hfw] at hfind
    have hq := List.find?_some hfw
    have hqmem := List.mem_of_find?_eq_some hfw
    simp only [decide_eq_true_eq] at hq
    have := hag q hqmem hq
    rw [hw, ← hfind]
    simp [this]

theorem setKey_cons {β : Type} (p : Str × β) (rest : List (Str × β)) (k : Str) (v : β) :
    setKey (p :: rest) k v =
      if p.1 = k then (k, v) :: rest.map (fun q => if q.1 = k then (k, v) else q)
      else p :: setKey rest k v := by
  by_cases hp : p.1 = k
  · simp [setKey, List.any_cons, hp]
  · by_cases hr : (rest.any fun q => q.1 = k) = true
    · simp [setKey, List.any_cons, hp, hr]
    · simp [setKey, List.any_cons, hp, hr]

theorem getKey_overwrite_other {β : Type} (d : List (Str × β)) (k k' : Str) (v : β)
    (hne : k' ≠ k) :
    getKey (d.map (fun q => if q.1 = k then (k, v) else q)) k' = getKey d k' := by
  induction d with
  | nil => rfl
  | cons p rest ih =>
    rw [List.map_cons, getKey_cons, getKey_cons]
    by_cases hp : p.1 = k
    · rw [if_pos hp]
      have h1 : ¬ (k, v).1 = k' := fun hc => hne hc.symm
      have h2 : ¬ p.1 = k' := fun hc => hne (hc ▸ hp.symm ▸ rfl)
      rw [if_neg h1, if_neg (by rw [hp]; exact fun hc => hne hc.symm), ih]
    · rw [if_neg hp]
      by_cases hp' : p.1 = k'
      · rw [if_pos hp', if_pos hp']
      · rw [if_neg hp', if_neg hp', ih]

theorem getKey_setKey_self {β : Type} (d : List (Str × β)) (k : Str) (v : β) :
    getKey (setKey d k v) k = some v := by
  induction d with
  | nil =>
    rw [setKey_nil, getKey_cons, if_pos rfl]
  | cons p rest ih =>
    rw [setKey_cons]
    by_cases hp : p.1 = k
    · rw [if_pos hp, getKey_cons, if_pos rfl]
    · rw [if_neg hp, getKey_cons, if_neg hp]
      exact ih

theorem getKey_setKey_other {β : Type} (d : List (Str × β)) (k k' : Str) (v : β)
    (hne : k' ≠ k) : getKey (setKey d k v) k' = getKey d k' := by
  induction d with
  | nil =>
    rw [setKey_nil, getKey_cons, if_neg (fun hc => hne hc.symm)]
  | cons p rest ih =>
    rw [setKey_cons]
    by_cases hp : p.1 = k
    · rw [if_pos hp, getKey_cons, getKey_cons]
      have h1 : ¬ (k, v).1 = k' := fun hc => hne hc.symm
      rw [if_neg h1, if_neg (by rw [hp]; exact fun hc => hne hc.symm)]
      exact getKey_overwrite_other rest k k' v hne
    · rw [if_neg hp, getKey_cons, getKey_cons]
      by_cases hp' : p.1 = k'
      · rw [if_pos hp', if_pos hp']
      · rw [if_neg hp', if_neg hp', ih]

theorem agreeKey_setKey_self {β : Type} (d : List (Str × β)) (k : Str) (v : β) :
    agreeKey (setKey d k v) k v := by
  intro q hq hqk
  unfold setKey at hq
  by_cases hc : (d.any fun p => p.1 = k) = true
  · rw [if_pos hc] at hq
    rcases List.mem_map.1 hq with ⟨q0, hq0, he⟩
    by_cases h0 : q0.1 = k
    · rw [if_pos h0] at he
      exact he.symm
    · rw [if_neg h0] at he
      exact absurd (he ▸ hqk) h0
  · rw [if_neg hc] at hq
    rcases List.mem_append.1 hq with h | h
    · exfalso
      apply hc
      exact List.any_eq_true.2 ⟨q, h, by simpa using hqk⟩
    · simpa using h

theorem agreeKey_setKey_other {β : Type} (d : List (Str × β)) (k k' : Str) (v v' : β)
    (hne : k' ≠ k) (hag : agreeKey d k v) : agreeKey (setKey d k' v') k v := by
  intro q hq hqk
  unfold setKey at hq
  by_cases hc : (d.any fun p => p.1 = k') = true
  · rw [if_pos hc] at hq
    rcases List.mem_map.1 hq with ⟨q0, hq0, he⟩
    by_cases h0 : q0.1 = k'
    · rw [if_pos h0] at he
      subst he
      exact absurd hqk hne
    · rw [if_neg h0] at he
      subst he
      exact hag q0 hq0 hqk
  · rw [if_neg hc] at hq
    rcases List.mem_append.1 hq with h | h
    · exact hag q h hqk
    · have hq' : q = (k', v') := by simpa using h
      subst hq'
      exact absurd hqk hne

theorem memKey_setKey_self {β : Type} (d : List (Str × β)) (k : Str) (v : β) :
    k ∈ (setKey d k v).map Prod.fst := by
  unfold setKey
  by_cases hc : (d.any fun p => p.1 = k) = true
  · rw [if_pos hc]
    rcases List.any_eq_true.1 hc with ⟨p, hp, hpk⟩
    simp only [decide_eq_true_eq] at hpk
    apply List.mem_map.2
    exact ⟨(k, v), List.mem_map.2 ⟨p, hp, by rw [if_pos hpk]⟩, rfl⟩
  · rw [if_neg hc, List.map_append]
    exact List.mem_append.2 (Or.inr (by simp))

theorem memKey_setKey {β : Type} (d : List (Str × β)) (k k' : Str) (v' : β)
    (h : k ∈ d.map Prod.fst) : k ∈ (setKey d k' v').map Prod.fst := by
  unfold setKey
  by_cases hc : (d.any fun p => p.1 = k') = true
  · rw [if_pos hc]
    rcases List.mem_map.1 h with ⟨q, hq, he⟩
    by_cases h0 : q.1 = k'
    · apply List.mem_map.2
      exact ⟨(k', v'), List.mem_map.2 ⟨q, hq, by rw [if_pos h0]⟩, by rw [← he, h0]⟩
    · apply List.mem_map.2
      exact ⟨q, List.mem_map.2 ⟨q, hq, by rw [if_neg h0]⟩, he⟩
  · rw [if_neg hc]
    simp only [List.map_append, List.mem_append]
    exact Or.inl h

theorem overwrite_id {β : Type} (d : List (Str × β)) (k : Str) (v : β)
    (hag : agreeKey d k v) :
    d.map (fun q => if q.1 = k then (k, v) else q) = d := by
  induction d with
  | nil => rfl
  | cons p rest ih =>
    rw [List.map_cons]
    have hrest := ih (fun q hq => hag q (List.mem_cons_of_mem p hq))
    by_cases hp : p.1 = k
    · rw [if_pos hp, hrest, hag p (List.mem_cons_self p rest) hp]
    · rw [if_neg hp, hrest]

theorem setKey_fixpoint {β : Type} (d : List (Str × β)) (k : Str) (v : β)
    (hmem : k ∈ d.map Prod.fst) (hag : agreeKey d k v) : setKey d k v = d := by
  rw [setKey, if_pos ((anyKey_iff d k).2 hmem), overwrite_id d k v hag]

theorem dictUpdate_cons {β : Type} (d : List (Str × β)) (p : Str × β)
    (new : List (Str × β)) :
    dictUpdate d (p :: new) = dictUpdate (setKey d p.1 p.2) new := rfl

theorem getKey_dictUpdate_not_mem {β : Type} (new : List (Str × β)) :
    ∀ (d : List (Str × β)) (k : Str), k ∉ new.map Prod.fst →
      getKey (dictUpdate d new) k = getKey d k := by
  induction new with
  | nil => intro d k _; rfl
  | cons p rest ih =>
    intro d k h
    have hne : k ≠ p.1 :=
      fun hc => h (List.mem_map.2 ⟨p, List.mem_cons_self p rest, hc.symm⟩)
    have htail : k ∉ rest.map Prod.fst := by
      intro hm
      rcases List.mem_map.1 hm with ⟨q, hq, he⟩
      exact h (List.mem_map.2 ⟨q, List.mem_cons_of_mem p hq, he⟩)
    rw [dictUpdate_cons, ih (setKey d p.1 p.2) k htail]
    exact getKey_setKey_other d p.1 k p.2 hne

theorem agreeKey_dictUpdate {β : Type} (new : List (Str × β)) :
    ∀ (d : List (Str × β)) (k : Str) (v : β), k ∉ new.map Prod.fst →
      agreeKey d k v → agreeKey (dictUpdate d new) k v := by
  induction new with
  | nil => intro d k v _ hag; exact hag
  | cons p rest ih =>
    intro d k v h hag
    have hne : k ≠ p.1 :=
      fun hc => h (List.mem_map.2 ⟨p, List.mem_cons_self p rest, hc.symm⟩)
    have htail : k ∉ rest.map Prod.fst := by
      intro hm
      rcases List.mem_map.1 hm with ⟨q, hq, he⟩
      exact h (List.mem_map.2 ⟨q, List.mem_cons_of_mem p hq, he⟩)
    rw [dictUpdate_cons]
    exact ih (setKey d p.1 p.2) k v htail
      (agreeKey_setKey_other d k p.1 v p.2 (fun hc => hne hc.symm) hag)

theorem memKey_dictUpdate {β : Type} (new : List (Str × β)) :
    ∀ (d : List (Str × β)) (k : Str), k ∈ d.map Prod.fst →
      k ∈ (dictUpdate d new).map Prod.fst := by
  induction new with
  | nil => intro d k h; exact h
  | cons p rest ih =>
    intro d k h
    rw [dictUpdate_cons]
    exact ih (setKey d p.1 p.2) k (memKey_setKey d k p.1 p.2 h)

theorem getKey_dictUpdate_mem {β : Type} (new : List (Str × β)) :
    ∀ (d : List (Str × β)) (k : Str) (v : β), (new.map Prod.fst).Nodup →
      (k, v) ∈ new → getKey (dictUpdate d new) k = some v := by
  induction new with
  | nil => intro d k v _ hmem; simp at hmem
  | cons p rest ih =>
    intro d k v hnd hmem
    rw [List.map_cons, List.nodup_cons] at hnd
    rw [dictUpdate_cons]
    rcases List.mem_cons.1 hmem with heq | hm
    · rw [← heq] at hnd ⊢
      rw [getKey_dictUpdate_not_mem rest _ k hnd.1]
      exact getKey_setKey_self d k v
    · exact ih (setKey d p.1 p.2) k v hnd.2 hm

theorem agreeKey_of_nodup {β : Type} (d : List (Str × β)) (k : Str) (v : β)
    (hnd : (d.map Prod.fst).Nodup) (hmem : (k, v) ∈ d) : agreeKey d k v := by
  induction d with
  | nil => simp at hmem
  | cons p rest ih =>
    rw [List.map_cons, List.nodup_cons] at hnd
    intro q hq hqk
    rcases List.mem_cons.1 hmem with heq | hm
    · rcases List.mem_cons.1 hq with rfl | hq'
      · exact heq.symm
      · exfalso
        apply hnd.1
        rw [← heq]
        exact List.mem_map.2 ⟨q, hq', hqk⟩
    · rcases List.mem_cons.1 hq with rfl | hq'
      · exfalso
        apply hnd.1
        rw [hqk]
        exact List.mem_map.2 ⟨(k, v), hm, rfl⟩
      · exact ih hnd.2 hm q hq' hqk

theorem dictUpdate_absorb {β : Type} (new : List (Str × β)) :
    ∀ d : List (Str × β),
      (∀ q ∈ new, q.1 ∈ d.map Prod.fst ∧ agreeKey d q.1 q.2) →
      dictUpdate d new = d := by
  induction new with
  | nil => intro d _; rfl
  | cons p rest ih =>
    intro d h
    have hp := h p (List.mem_cons_self p rest)
    rw [dictUpdate_cons, setKey_fixpoint d p.1 p.2 hp.1 hp.2]
    exact ih d (fun q hq => h q (List.mem_cons_of_mem p hq))

theorem dictUpdate_self {β : Type} (d : List (Str × β))
    (hnd : (d.map Prod.fst).Nodup) : dictUpdate d d = d := by
  apply dictUpdate_absorb
  intro q hq
  refine ⟨List.mem_map.2 ⟨q, hq, rfl⟩, ?_⟩
  have hq' : (q.1, q.2) ∈ d := by
    rw [Prod.mk.eta]
    exact hq
  exact agreeKey_of_nodup d q.1 q.2 hnd hq'

theorem dictUpdate_idem {β : Type} (new : List (Str × β)) :
    ∀ d : List (Str × β), (new.map Prod.fst).Nodup →
      dictUpdate (dictUpdate d new) new = dictUpdate d new := by
  induction new with
  | nil => intro d _; rfl
  | cons p rest ih =>
    intro d hnd
    rw [List.map_cons, List.nodup_cons] at hnd
    rw [dictUpdate_cons, dictUpdate_cons]
    have hag : agreeKey (dictUpdate (setKey d p.1 p.2) rest) p.1 p.2 :=
      agreeKey_dictUpdate rest (setKey d p.1 p.2) p.1 p.2 hnd.1
        (agreeKey_setKey_self d p.1 p.2)
    have hmem : p.1 ∈ (dictUpdate (setKey d p.1 p.2) rest).map Prod.fst :=
      memKey_dictUpdate rest (setKey d p.1 p.2) p.1 (memKey_setKey_self d p.1 p.2)
    rw [setKey_fixpoint _ p.1 p.2 hmem hag]
    exact ih (setKey d p.1 p.2) hnd.2

theorem mergeTopic_getKey_other (jd : Store) (kp : Str × Papers) (kw : Str)
    (hne : kp.1 ≠ kw) : getKey (mergeTopic jd kp) kw = getKey jd kw := by
  unfold mergeTopic
  by_cases hc : (jd.any fun p => p.1 = kp.1) = true
  · rw [if_pos hc]
    exact getKey_setKey_other jd kp.1 kw _ (fun h => hne h.symm)
  · rw [if_neg hc, getKey_append, getKey_cons, if_neg hne]
    show (getKey jd kw).or (getKey [] kw) = getKey jd kw
    cases getKey jd kw <;> rfl

theorem mergeTopic_agree_other (jd : Store) (kp : Str × Papers) (kw : Str)
    (tp : Papers) (hne : kp.1 ≠ kw) (hag : agreeKey jd kw tp) :
    agreeKey (mergeTopic jd kp) kw tp := by
  unfold mergeTopic
  by_cases hc : (jd.any fun p => p.1 = kp.1) = true
  · rw [if_pos hc]
    exact agreeKey_setKey_other jd kw kp.1 tp _ hne hag
  · rw [if_neg hc]
    intro q hq hqk
    rcases List.mem_append.1 hq with h | h
    · exact hag q h hqk
    · have hq' : q = kp := by simpa using h
      subst hq'
      exact absurd hqk hne

theorem mergeTopic_memKey (jd : Store) (kp : Str × Papers) (kw : Str)
    (h : kw ∈ jd.map Prod.fst) : kw ∈ (mergeTopic jd kp).map Prod.fst := by
  unfold mergeTopic
  by_cases hc : (jd.any fun p => p.1 = kp.1) = true
  · rw [if_pos hc]
    exact memKey_setKey jd kw kp.1 _ h
  · rw [if_neg hc, List.map_append]
    exact List.mem_append.2 (Or.inl h)

theorem mergeTopic_fixpoint (jd : Store) (kp : Str × Papers) (tp : Papers)
    (hmem : kp.1 ∈ jd.map Prod.fst) (hget : getKey jd kp.1 = some tp)
    (hag : agreeKey jd kp.1 tp) (hupd : dictUpdate tp kp.2 = tp) :
    mergeTopic jd kp = jd := by
  unfold mergeTopic
  rw [if_pos ((anyKey_iff jd kp.1).2 hmem), hget]
  show setKey jd kp.1 (dictUpdate tp kp.2) = jd
  rw [hupd]
  exact setKey_fixpoint jd kp.1 tp hmem hag

theorem mergeTopic_establish (jd : Store) (kp : Str × Papers)
    (hnd : (kp.2.map Prod.fst).Nodup) :
    ∃ tp, getKey (mergeTopic jd kp) kp.1 = some tp ∧
      agreeKey (mergeTopic jd kp) kp.1 tp ∧
      dictUpdate tp kp.2 = tp ∧
      kp.1 ∈ (mergeTopic jd kp).map Prod.fst ∧
      ∀ pid v, (pid, v) ∈ kp.2 → getKey tp pid = some v := by
  unfold mergeTopic
  by_cases hc : (jd.any fun p => p.1 = kp.1) = true
  · rw [if_pos hc]
    refine ⟨dictUpdate ((getKey jd kp.1).getD []) kp.2,
      getKey_setKey_self jd kp.1 _, agreeKey_setKey_self jd kp.1 _,
      dictUpdate_idem kp.2 _ hnd, memKey_setKey_self jd kp.1 _, ?_⟩
    intro pid v hpv
    exact getKey_dictUpdate_mem kp.2 _ pid v hnd hpv
  · rw [if_neg hc]
    have hjd : getKey jd kp.1 = none :=
      getKey_eq_none_of_not_mem jd kp.1 (fun hm => hc ((anyKey_iff jd kp.1).2 hm))
    refine ⟨kp.2, ?_, ?_, dictUpdate_self kp.2 hnd, ?_, ?_⟩
    · rw [getKey_append, hjd, getKey_cons, if_pos rfl, Option.none_or]
    · intro q hq hqk
      rcases List.mem_append.1 hq with h | h
      · exfalso
        apply hc
        exact List.any_eq_true.2 ⟨q, h, by simpa using hqk⟩
      · have hq' : q = kp := by simpa using h
        subst hq'
        exact Prod.mk.eta.symm
    · rw [List.map_append]
      exact List.mem_append.2 (Or.inr (by simp))
    · intro pid v hpv
      apply getKey_of_agree kp.2 pid v (List.mem_map.2 ⟨(pid, v), hpv, rfl⟩)
      exact agreeKey_of_nodup kp.2 pid v hnd hpv

theorem foldMT_getKey_other (ops : List (Str × Papers)) :
    ∀ (jd : Store) (kw : Str), kw ∉ ops.map Prod.fst →
      getKey (ops.foldl mergeTopic jd) kw = getKey jd kw := by
  induction ops with
  | nil => intro jd kw _; rfl
  | cons kp rest ih =>
    intro jd kw h
    have hne : kp.1 ≠ kw :=
      fun hc => h (List.mem_map.2 ⟨kp, List.mem_cons_self kp rest, hc⟩)
    have htail : kw ∉ rest.map Prod.fst := by
      intro hm
      rcases List.mem_map.1 hm with ⟨q, hq, he⟩
      exact h (List.mem_map.2 ⟨q, List.mem_cons_of_mem kp hq, he⟩)
    rw [List.foldl_cons, ih (mergeTopic jd kp) kw htail]
    exact mergeTopic_getKey_other jd kp kw hne

theorem foldMT_agree (ops : List (Str × Papers)) :
    ∀ (jd : Store) (kw : Str) (tp : Papers), kw ∉ ops.map Prod.fst →
      agreeKey jd kw tp → agreeKey (ops.foldl mergeTopic jd) kw tp := by
  induction ops with
  | nil => intro jd kw tp _ hag; exact hag
  | cons kp rest ih =>
    intro jd kw tp h hag
    have hne : kp.1 ≠ kw :=
      fun hc => h (List.mem_map.2 ⟨kp, List.mem_cons_self kp rest, hc⟩)
    have htail : kw ∉ rest.map Prod.fst := by
      intro hm
      rcases List.mem_map.1 hm with ⟨q, hq, he⟩
      exact h (List.mem_map.2 ⟨q, List.mem_cons_of_mem kp hq, he⟩)
    rw [List.foldl_cons]
    exact ih (mergeTopic jd kp) kw tp htail
      (mergeTopic_agree_other jd kp kw tp hne hag)

theorem foldMT_memKey (ops : List (Str × Papers)) :
    ∀ (jd : Store) (kw : Str), kw ∈ jd.map Prod.fst →
      kw ∈ (ops.foldl mergeTopic jd).map Prod.fst := by
  induction ops with
  | nil => intro jd kw h; exact h
  | cons kp rest ih =>
    intro jd kw h
    rw [List.foldl_cons]
    exact ih (mergeTopic jd kp) kw (mergeTopic_memKey jd kp kw h)

theorem foldMT_lookup_preserve (ops : List (Str × Papers)) :
    ∀ (jd : Store) (kw pid : Str),
      (∀ kp ∈ ops, kp.1 = kw → pid ∉ kp.2.map Prod.fst) →
      lookupPaper (ops.foldl mergeTopic jd) kw pid = lookupPaper jd kw pid := by
  induction ops with
  | nil => intro jd kw pid _; rfl
  | cons kp rest ih =>
    intro jd kw pid h
    rw [List.foldl_cons,
      ih (mergeTopic jd kp) kw pid (fun q hq => h q (List.mem_cons_of_mem kp hq))]
    by_cases hkw : kp.1 = kw
    · have hpid : pid ∉ kp.2.map Prod.fst := h kp (List.mem_cons_self kp rest) hkw
      subst hkw
      unfold mergeTopic lookupPaper
      by_cases hc : (jd.any fun p => p.1 = kp.1) = true
      · rw [if_pos hc]
        obtain ⟨tp, htp⟩ := getKey_isSome_of_mem jd kp.1 ((anyKey_iff jd kp.1).1 hc)
        rw [getKey_setKey_self, htp]
        simp only [Option.some_bind, Option.getD_some]
        exact getKey_dictUpdate_not_mem kp.2 tp pid hpid
      · rw [if_neg hc]
        have hjd : getKey jd kp.1 = none :=
          getKey_eq_none_of_not_mem jd kp.1 (fun hm => hc ((anyKey_iff jd kp.1).2 hm))
        rw [getKey_append, hjd, getKey_cons, if_pos rfl, Option.none_or]
        simp only [Option.some_bind, Option.none_bind]
        exact getKey_eq_none_of_not_mem kp.2 pid hpid
    · unfold lookupPaper
      rw [mergeTopic_getKey_other jd kp kw hkw]

theorem foldMT_lookup_overwrite (ops : List (Str × Papers)) :
    ∀ jd : Store, (ops.map Prod.fst).Nodup →
      (∀ kp ∈ ops, (kp.2.map Prod.fst).Nodup) →
      ∀ kw papers pid v, (kw, papers) ∈ ops → (pid, v) ∈ papers →
        lookupPaper (ops.foldl mergeTopic jd) kw pid = some v := by
  induction ops with
  | nil => intro jd _ _ kw papers pid v hmem _; simp at hmem
  | cons kp rest ih =>
    intro jd hnd hpnd kw papers pid v hmem hpv
    rw [List.map_cons, List.nodup_cons] at hnd
    rw [List.foldl_cons]
    rcases List.mem_cons.1 hmem with heq | hm
    · subst heq
      obtain ⟨tp, hget, -, -, -, hlook⟩ :=
        mergeTopic_establish jd (kw, papers)
          (hpnd (kw, papers) (List.mem_cons_self _ rest))
      have hget2 : getKey (mergeTopic jd (kw, papers)) kw = some tp := hget
      unfold lookupPaper
      rw [foldMT_getKey_other rest (mergeTopic jd (kw, papers)) kw hnd.1, hget2]
      simp only [Option.some_bind]
      exact hlook pid v hpv
    · exact ih (mergeTopic jd kp) hnd.2
        (fun q hq => hpnd q (List.mem_cons_of_mem kp hq)) kw papers pid v hm hpv

theorem foldMT_idem (ops : List (Str × Papers)) :
    ∀ jd : Store, (ops.map Prod.fst).Nodup →
      (∀ kp ∈ ops, (kp.2.map Prod.fst).Nodup) →
      ops.foldl mergeTopic (ops.foldl mergeTopic jd) = ops.foldl mergeTopic jd := by
  induction ops with
  | nil => intro jd _ _; rfl
  | cons kp rest ih =>
    intro jd hnd hpnd
    rw [List.map_cons, List.nodup_cons] at hnd
    rw [List.foldl_cons, List.foldl_cons]
    obtain ⟨tp, hget, hag, hupd, hmem, -⟩ :=
      mergeTopic_establish jd kp (hpnd kp (List.mem_cons_self kp rest))
    have hget' : getKey (rest.foldl mergeTopic (mergeTopic jd kp)) kp.1 = some tp := by
      rw [foldMT_getKey_other rest (mergeTopic jd kp) kp.1 hnd.1, hget]
    have hag' := foldMT_agree rest (mergeTopic jd kp) kp.1 tp hnd.1 hag
    have hmem' := foldMT_memKey rest (mergeTopic jd kp) kp.1 hmem
    rw [mergeTopic_fixpoint _ kp tp hmem' hget' hag' hupd]
    exact ih (mergeTopic jd kp) hnd.2
      (fun q hq => hpnd q (List.mem_cons_of_mem kp hq))

theorem update_json_file_eq_foldl (m : Store) (dd : List Store) :
    update_json_file m dd = dd.flatten.foldl mergeTopic m := by
  rw [update_json_file, List.foldl_flatten]

/-- C2: `update_json_file` is a right-biased key-by-key union.
Identifiers present in an existing topic but untouched by the batch keep
their records (the topic mapping is never replaced wholesale); batch
identifiers overwrite; and — for a batch with no duplicate topic or
identifier keys, as produced by `get_daily_papers` — merging the same
batch twice yields a store equal to merging it once. -/
theorem merge_discovery_contract (m : Store) (dd : List Store) :
    (∀ kw pid, (∀ st ∈ dd, ∀ kp ∈ st, kp.1 = kw → pid ∉ kp.2.map Prod.fst) →
        lookupPaper (update_json_file m dd) kw pid = lookupPaper m kw pid)
    ∧ ((dd.flatten.map Prod.fst).Nodup →
        (∀ st ∈ dd, ∀ kp ∈ st, (kp.2.map Prod.fst).Nodup) →
        (∀ kw papers pid v, (kw, papers) ∈ dd.flatten → (pid, v) ∈ papers →
            lookupPaper (update_json_file m dd) kw pid = some v)
        ∧ update_json_file (update_json_file m dd) dd = update_json_file m dd) := by
  constructor
  · intro kw pid h
    rw [update_json_file_eq_foldl]
    apply foldMT_lookup_preserve
    intro kp hkp hk
    rcases List.mem_flatten.1 hkp with ⟨st, hst, hkp'⟩
    exact h st hst kp hkp' hk
  · intro hnd hpnd
    have hpnd' : ∀ kp ∈ dd.flatten, (kp.2.map Prod.fst).Nodup := by
      intro kp hkp
      rcases List.mem_flatten.1 hkp with ⟨st, hst, hkp'⟩
      exact hpnd st hst kp hkp'
    constructor
    · intro kw papers pid v hm hpv
      rw [update_json_file_eq_foldl]
      exact foldMT_lookup_overwrite dd.flatten m hnd hpnd' kw papers pid v hm hpv
    · rw [update_json_file_eq_foldl, update_json_file_eq_foldl]
      exact foldMT_idem dd.flatten m hnd hpnd'

/-- Witness for the merge contract: a store holding one `slam` record,
merged with a batch discovering a different identifier — the old record
is preserved, and merging the batch twice equals merging it once. -/
theorem merge_discovery_contract_witness :
    lookupPaper
        (update_json_file [(strL "slam", [(strL "2108.09112", strL "old")])]
          [[(strL "slam", [(strL "2201.00001", strL "new")])]])
        (strL "slam") (strL "2108.09112")
      = lookupPaper [(strL "slam", [(strL "2108.09112", strL "old")])]
          (strL "slam") (strL "2108.09112")
    ∧ update_json_file
        (update_json_file [(strL "slam", [(strL "2108.09112", strL "old")])]
          [[(strL "slam", [(strL "2201.00001", strL "new")])]])
        [[(strL "slam", [(strL "2201.00001", strL "new")])]]
      = update_json_file [(strL "slam", [(strL "2108.09112", strL "old")])]
          [[(strL "slam", [(strL "2201.00001", strL "new")])]] := by
  have h := merge_discovery_contract
    [(strL "slam", [(strL "2108.09112", strL "old")])]
    [[(strL "slam", [(strL "2201.00001", strL "new")])]]
  exact ⟨h.1 _ _ (by decide), (h.2 (by decide) (by decide)).2⟩

theorem containsSub_append_right (pat ys xs : Str)
    (h : containsSub pat ys = true) : containsSub pat (xs ++ ys) = true := by
  induction xs with
  | nil => exact h
  | cons c rest ih =>
    rw [List.cons_append, containsSub]
    simp [ih]

theorem backfillTopic_eq (resolve : Str → Str → Str → Option Str) (tp : Papers) :
    backfillTopic resolve tp =
      (tp.map (fun pr => (pr.1, (backfillRecord resolve pr.2).1)),
       (tp.map (fun pr => (backfillRecord resolve pr.2).2)).sum) := by
  have key : ∀ (l : Papers) (acc : Papers × Nat),
      l.foldl
        (fun acc pr =>
          let r := backfillRecord resolve pr.2
          (acc.1 ++ [(pr.1, r.1)], acc.2 + r.2)) acc
      = (acc.1 ++ l.map (fun pr => (pr.1, (backfillRecord resolve pr.2).1)),
         acc.2 + (l.map (fun pr => (backfillRecord resolve pr.2).2)).sum) := by
    intro l
    induction l with
    | nil => intro acc; simp
    | cons pr rest ih =>
      intro acc
      rw [List.foldl_cons, ih]
      simp [List.append_assoc, Nat.add_assoc]
  rw [backfillTopic, key tp ([], 0)]
  simp

theorem update_paper_links_eq (resolve : Str → Str → Str → Option Str) (m : Store) :
    update_paper_links resolve m =
      (m.map (fun kv => (kv.1, (backfillTopic resolve kv.2).1)),
       (m.map (fun kv => (backfillTopic resolve kv.2).2)).sum) := by
  have key : ∀ (l : Store) (acc : Store × Nat),
      l.foldl
        (fun acc kv =>
          let t := backfillTopic resolve kv.2
          (acc.1 ++ [(kv.1, t.1)], acc.2 + t.2)) acc
      = (acc.1 ++ l.map (fun kv => (kv.1, (backfillTopic resolve kv.2).1)),
         acc.2 + (l.map (fun kv => (backfillTopic resolve kv.2).2)).sum) := by
    intro l
    induction l with
    | nil => intro acc; simp
    | cons kv rest ih =>
      intro acc
      rw [List.foldl_cons, ih]
      simp [List.append_assoc, Nat.add_assoc]
  rw [update_paper_links, key m ([], 0)]
  simp

/-- C4: during backfill a record whose serialized form fails to parse is
left unmodified with zero resolver invocations, and the failure does not
disturb the processing of the other records of its topic (nor, the store
pass being a per-topic map, of any other topic). -/
theorem backfill_parse_failure_isolated
    (resolve : Str → Str → Str → Option Str) (pre post : Papers)
    (pid bad : Str) (hbad : parse_arxiv_string bad = none) :
    backfillRecord resolve bad = (bad, 0)
    ∧ (backfillTopic resolve (pre ++ (pid, bad) :: post)).1
        = (backfillTopic resolve pre).1 ++ (pid, bad) :: (backfillTopic resolve post).1
    ∧ (backfillTopic resolve (pre ++ (pid, bad) :: post)).2
        = (backfillTopic resolve pre).2 + (backfillTopic resolve post).2
    ∧ (update_paper_links resolve ([] : Store)).1 = []
    ∧ ∀ m : Store, (update_paper_links resolve m).1
        = m.map (fun kv => (kv.1, (backfillTopic resolve kv.2).1)) := by
  have h1 : backfillRecord resolve bad = (bad, 0) := by
    unfold backfillRecord
    rw [hbad]
  refine ⟨h1, ?_, ?_, rfl, ?_⟩
  · rw [backfillTopic_eq, backfillTopic_eq, backfillTopic_eq]
    simp [h1]
  · rw [backfillTopic_eq, backfillTopic_eq, backfillTopic_eq]
    simp [h1]
  · intro m
    rw [update_paper_links_eq]

/-- Witness: a malformed record between two well-formed `slam` records is
kept verbatim while its neighbours are still normalized. -/
theorem backfill_parse_failure_isolated_witness :
    backfillRecord (fun _ _ _ => none) (strL "oops") = (strL "oops", 0)
    ∧ (backfillTopic (fun _ _ _ => none)
        ([] ++ (strL "2108.09112", strL "oops")
          :: [(strL "2201.00001", strL "|a|b|c|[d](e)|null|")])).1
      = (backfillTopic (fun _ _ _ => none) []).1
          ++ (strL "2108.09112", strL "oops")
            :: (backfillTopic (fun _ _ _ => none)
                [(strL "2201.00001", strL "|a|b|c|[d](e)|null|")]).1 := by
  have h := backfill_parse_failure_isolated (fun _ _ _ => none) []
    [(strL "2201.00001", strL "|a|b|c|[d](e)|null|")]
    (strL "2108.09112") (strL "oops") (by decide)
  exact ⟨h.1, h.2.1⟩

theorem backfillRecord_some (resolve : Str → Str → Str → Option Str) (c : Str)
    (r : ParsedRecord) (h : parse_arxiv_string c = some r) :
    backfillRecord resolve c =
      if containsSub nullCell (rebuildRecord r) = true then
        match resolve r.arxivId r.title r.authors with
        | some url => (replaceAll nullCell (linkCell url) (rebuildRecord r), 1)
        | none => (rebuildRecord r, 1)
      else (rebuildRecord r, 0) := by
  unfold backfillRecord
  rw [h]

/-- C10: the unresolved marker is concretely the literal table cell
`null`: a paper for which every resolver stage returned the absent
sentinel is stored as a record containing the substring `|null|`;
backfill invokes the resolver for a parsed record exactly when its
normalized serialization contains `|null|`; and on success that cell is
replaced by `|**[link](<url>)**|` via string substitution. -/
theorem null_marker_contract (resolve : Str → Str → Str → Option Str) :
    (∀ t ti au k u, containsSub nullCell (mkRecordNull t ti au k u) = true)
    ∧ (∀ c r, parse_arxiv_string c = some r →
        ((backfillRecord resolve c).2 = 1 ↔
          containsSub nullCell (rebuildRecord r) = true))
    ∧ (∀ c r url, parse_arxiv_string c = some r →
        containsSub nullCell (rebuildRecord r) = true →
        resolve r.arxivId r.title r.authors = some url →
        (backfillRecord resolve c).1
          = replaceAll nullCell (linkCell url) (rebuildRecord r)) := by
  refine ⟨?_, ?_, ?_⟩
  · intro t ti au k u
    unfold mkRecordNull
    apply containsSub_append_right
    decide
  · intro c r hparse
    rw [backfillRecord_some resolve c r hparse]
    by_cases hnull : containsSub nullCell (rebuildRecord r) = true
    · rw [if_pos hnull]
      cases resolve r.arxivId r.title r.authors <;> simp [hnull]
    · rw [if_neg hnull]
      simp only [Bool.not_eq_true] at hnull
      simp [hnull]
  · intro c r url hparse hnull hres
    rw [backfillRecord_some resolve c r hparse, if_pos hnull, hres]

/-- Witness: the concrete unresolved `slam` record contains `|null|`, and
backfilling it performs exactly one resolver invocation. -/
theorem null_marker_contract_witness :
    containsSub nullCell (mkRecordNull (strL "2021-08-20") (strL "T") (strL "A")
        (strL "2108.09112") (strL "u")) = true
    ∧ (backfillRecord (fun _ _ _ => some (strL "https://github.com/org/r"))
        (mkRecordNull (strL "2021-08-20") (strL "T") (strL "A")
          (strL "2108.09112") (strL "u"))).2 = 1 := by
  have h := null_marker_contract (fun _ _ _ => some (strL "https://github.com/org/r"))
  refine ⟨h.1 _ _ _ _ _, ?_⟩
  exact (h.2.1 _ ⟨strL "**2021-08-20**", strL "**T**", strL "A et.al.",
      strL "2108.09112", strL "null", strL "[2108.09112](u)"⟩ (by decide)).2 (by decide)

theorem splitBar_ne_nil (s : Str) : splitBar s ≠ [] := by
  induction s with
  | nil => simp [splitBar]
  | cons c rest ih =>
    by_cases hc : c = '|'
    · rw [splitBar, if_pos hc]
      simp
    · rw [splitBar, if_neg hc]
      cases hr : splitBar rest with
      | nil => simp
      | cons a b => simp

theorem splitBar_cons_not_bar (c : Char) (rest : Str) (hc : ¬ c = '|')
    (a : Str) (b : List Str) (hr : splitBar rest = a :: b) :
    splitBar (c :: rest) = (c :: a) :: b := by
  rw [splitBar, if_neg hc, hr]

theorem splitBar_append_bar (xs ys : Str) (h : '|' ∉ xs) :
    splitBar (xs ++ '|' :: ys) = xs :: splitBar ys := by
  induction xs with
  | nil =>
    rw [List.nil_append, splitBar, if_pos rfl]
  | cons c rest ih =>
    have hc : ¬ c = '|' := fun hcc => h (by rw [hcc]; exact List.mem_cons_self _ _)
    have htail : '|' ∉ rest := fun hm => h (List.mem_cons_of_mem c hm)
    have hrec := ih htail
    rw [List.cons_append]
    rw [splitBar_cons_not_bar c _ hc rest (splitBar ys) hrec]

theorem noBar_splitBar (s : Str) : ∀ part ∈ splitBar s, '|' ∉ part := by
  induction s with
  | nil =>
    intro part hp
    rw [splitBar] at hp
    rcases List.mem_cons.1 hp with rfl | h
    · simp
    · simp at h
  | cons c rest ih =>
    intro part hp
    by_cases hc : c = '|'
    · rw [splitBar, if_pos hc] at hp
      rcases List.mem_cons.1 hp with rfl | h
      · simp
      · exact ih part h
    · obtain ⟨a, b, hr⟩ : ∃ a b, splitBar rest = a :: b := by
        cases hsp : splitBar rest with
        | nil => exact absurd hsp (splitBar_ne_nil rest)
        | cons a b => exact ⟨a, b, rfl⟩
      rw [splitBar_cons_not_bar c rest hc a b hr] at hp
      rcases List.mem_cons.1 hp with rfl | h
      · intro hmem
        rcases List.mem_cons.1 hmem with he | hm
        · exact hc he.symm
        · exact ih a (by rw [hr]; exact List.mem_cons_self a b) hm
      · exact ih part (by rw [hr]; exact List.mem_cons_of_mem a h)

theorem mem_pyStrip (s : Str) (c : Char) (h : c ∈ pyStrip s) : c ∈ s := by
  unfold pyStrip at h
  rw [List.mem_reverse] at h
  have h2 := (List.dropWhile_sublist _).subset h
  rw [List.mem_reverse] at h2
  exact (List.dropWhile_sublist _).subset h2

theorem pyStrip_idem (s : Str) : pyStrip (pyStrip s) = pyStrip s := by
  by_cases hnil : pyStrip s = []
  · rw [hnil]
    rfl
  · have h1 : pyStrip s = List.rdropWhile isPySpace (List.dropWhile isPySpace s) := rfl
    have hpre : pyStrip s <+: List.dropWhile isPySpace s := by
      rw [h1]
      exact List.rdropWhile_prefix isPySpace (List.dropWhile isPySpace s)
    have hlen : 0 < (pyStrip s).length := List.length_pos.2 hnil
    have hlen_t : 0 < (List.dropWhile isPySpace s).length :=
      lt_of_lt_of_le hlen hpre.length_le
    have hhead_t : ¬ isPySpace ((List.dropWhile isPySpace s)[0]) = true := by
      have h := List.dropWhile_get_zero_not isPySpace s hlen_t
      simpa using h
    have hdropu : List.dropWhile isPySpace (pyStrip s) = pyStrip s := by
      rw [List.dropWhile_eq_self_iff]
      intro hl
      have hg : (pyStrip s).get ⟨0, hl⟩ = (List.dropWhile isPySpace s)[0] := by
        simp only [List.get_eq_getElem]
        exact hpre.getElem hl
      rw [hg]
      exact hhead_t
    show List.rdropWhile isPySpace (List.dropWhile isPySpace (pyStrip s)) = pyStrip s
    rw [hdropu, h1]
    exact List.rdropWhile_idempotent isPySpace (List.dropWhile isPySpace s)

theorem noBar_pyStrip (s : Str) (h : '|' ∉ s) : '|' ∉ pyStrip s :=
  fun hm => h (mem_pyStrip s '|' hm)

theorem parts_noBar (s : Str) (i : Nat) (hi : i < (splitBar s).length) :
    '|' ∉ (splitBar s).getD i [] := by
  rw [List.getD_eq_getElem (splitBar s) [] hi]
  exact noBar_splitBar s _ (List.getElem_mem hi)

theorem parse_rebuild (s : Str) (r : ParsedRecord)
    (h : parse_arxiv_string s = some r) :
    parse_arxiv_string (rebuildRecord r) = some r := by
  by_cases h6 : 6 ≤ (splitBar s).length
  case neg =>
    unfold parse_arxiv_string at h
    rw [if_neg h6] at h
    cases h
  case pos =>
    unfold parse_arxiv_string at h
    rw [if_pos h6] at h
    simp only [Option.some.injEq] at h
    subst h
    have hA : '|' ∉ pyStrip ((splitBar s).getD 1 []) :=
      noBar_pyStrip _ (parts_noBar s 1 (by omega))
    have hB : '|' ∉ pyStrip ((splitBar s).getD 2 []) :=
      noBar_pyStrip _ (parts_noBar s 2 (by omega))
    have hC : '|' ∉ pyStrip ((splitBar s).getD 3 []) :=
      noBar_pyStrip _ (parts_noBar s 3 (by omega))
    have hF : '|' ∉ pyStrip ((splitBar s).getD 4 []) :=
      noBar_pyStrip _ (parts_noBar s 4 (by omega))
    have hE : '|' ∉ pyStrip ((splitBar s).getD 5 []) :=
      noBar_pyStrip _ (parts_noBar s 5 (by omega))
    have hsplit : splitBar (rebuildRecord
        ⟨pyStrip ((splitBar s).getD 1 []), pyStrip ((splitBar s).getD 2 []),
          pyStrip ((splitBar s).getD 3 []),
          stripVersionSub
            (match bracketGroup (pyStrip ((splitBar s).getD 4 [])) with
              | some g => pyStrip g
              | none => pyStrip ((splitBar s).getD 4 [])),
          pyStrip ((splitBar s).getD 5 []), pyStrip ((splitBar s).getD 4 [])⟩)
        = [[], pyStrip ((splitBar s).getD 1 []), pyStrip ((splitBar s).getD 2 []),
            pyStrip ((splitBar s).getD 3 []), pyStrip ((splitBar s).getD 4 []),
            pyStrip ((splitBar s).getD 5 []), ['\n']] := by
      show splitBar ('|' :: (pyStrip ((splitBar s).getD 1 []) ++ '|' ::
          (pyStrip ((splitBar s).getD 2 []) ++ '|' ::
            (pyStrip ((splitBar s).getD 3 []) ++ '|' ::
              (pyStrip ((splitBar s).getD 4 []) ++ '|' ::
                (pyStrip ((splitBar s).getD 5 []) ++ ['|', '\n'])))))) = _
      have hnl : splitBar ['\n'] = [['\n']] := by decide
      rw [splitBar, if_pos rfl, splitBar_append_bar _ _ hA,
        splitBar_append_bar _ _ hB, splitBar_append_bar _ _ hC,
        splitBar_append_bar _ _ hF, splitBar_append_bar _ _ hE, hnl]
    unfold parse_arxiv_string
    rw [hsplit]
    rw [if_pos (by simp)]
    simp only [List.getD_cons_succ, List.getD_cons_zero, pyStrip_idem]

theorem resolvedRecord_none (c : Str) (hp : parse_arxiv_string c = none) :
    resolvedRecord c = false := by
  unfold resolvedRecord
  rw [hp]

theorem resolvedRecord_some (c : Str) (r : ParsedRecord)
    (hp : parse_arxiv_string c = some r) :
    resolvedRecord c = !(containsSub nullCell (rebuildRecord r)) := by
  unfold resolvedRecord
  rw [hp]

theorem normalizeRecord_some (c : Str) (r : ParsedRecord)
    (hp : parse_arxiv_string c = some r) :
    normalizeRecord c = rebuildRecord r := by
  unfold normalizeRecord
  rw [hp]

theorem backfillRecord_resolved (resolve : Str → Str → Str → Option Str)
    (c : Str) (h : resolvedRecord c = true) :
    backfillRecord resolve c = (normalizeRecord c, 0) := by
  cases hp : parse_arxiv_string c with
  | none =>
    rw [resolvedRecord_none c hp] at h
    cases h
  | some r =>
    have hc : containsSub nullCell (rebuildRecord r) = false := by
      have h3 : (!(containsSub nullCell (rebuildRecord r))) = true := by
        rw [← resolvedRecord_some c r hp]
        exact h
      simpa using h3
    rw [backfillRecord_some resolve c r hp, if_neg (by simp [hc]),
      normalizeRecord_some c r hp]

theorem resolvedRecord_normalize (c : Str) (h : resolvedRecord c = true) :
    resolvedRecord (normalizeRecord c) = true
    ∧ normalizeRecord (normalizeRecord c) = normalizeRecord c := by
  cases hp : parse_arxiv_string c with
  | none =>
    rw [resolvedRecord_none c hp] at h
    cases h
  | some r =>
    have hre := parse_rebuild c r hp
    have hn := normalizeRecord_some c r hp
    constructor
    · rw [hn, resolvedRecord_some _ r hre, ← resolvedRecord_some c r hp]
      exact h
    · rw [hn, normalizeRecord_some _ r hre]

theorem backfillTopic_resolved (resolve : Str → Str → Str → Option Str)
    (tp : Papers) (h : ∀ pr ∈ tp, resolvedRecord pr.2 = true) :
    backfillTopic resolve tp
      = (tp.map (fun pr => (pr.1, normalizeRecord pr.2)), 0) := by
  rw [backfillTopic_eq]
  have hmap : tp.map (fun pr => (pr.1, (backfillRecord resolve pr.2).1))
      = tp.map (fun pr => (pr.1, normalizeRecord pr.2)) := by
    apply List.map_congr_left
    intro pr hpr
    rw [backfillRecord_resolved resolve pr.2 (h pr hpr)]
  have hsum : (tp.map (fun pr => (backfillRecord resolve pr.2).2)).sum = 0 := by
    apply List.sum_eq_zero
    intro x hx
    rcases List.mem_map.1 hx with ⟨pr, hpr, he⟩
    rw [← he, backfillRecord_resolved resolve pr.2 (h pr hpr)]
  rw [hmap, hsum]

theorem update_paper_links_resolved (resolve : Str → Str → Str → Option Str)
    (m : Store) (h : ∀ kv ∈ m, ∀ pr ∈ kv.2, resolvedRecord pr.2 = true) :
    update_paper_links resolve m =
      (m.map (fun kv => (kv.1, kv.2.map (fun pr => (pr.1, normalizeRecord pr.2)))),
       0) := by
  rw [update_paper_links_eq]
  have hmap : m.map (fun kv => (kv.1, (backfillTopic resolve kv.2).1))
      = m.map (fun kv => (kv.1, kv.2.map (fun pr => (pr.1, normalizeRecord pr.2)))) := by
    apply List.map_congr_left
    intro kv hkv
    rw [backfillTopic_resolved resolve kv.2 (h kv hkv)]
  have hsum : (m.map (fun kv => (backfillTopic resolve kv.2).2)).sum = 0 := by
    apply List.sum_eq_zero
    intro x hx
    rcases List.mem_map.1 hx with ⟨kv, hkv, he⟩
    rw [← he, backfillTopic_resolved resolve kv.2 (h kv hkv)]
  rw [hmap, hsum]

/-- C3: on a store in which every record already carries a resolved code
link, backfill makes zero resolver invocations and only rewrites records
into their normalized serialized form; running backfill again on the
result is a no-op. -/
theorem backfill_noop_on_resolved (resolve : Str → Str → Str → Option Str)
    (m : Store) (h : ∀ kv ∈ m, ∀ pr ∈ kv.2, resolvedRecord pr.2 = true) :
    (update_paper_links resolve m).2 = 0
    ∧ (update_paper_links resolve m).1
        = m.map (fun kv => (kv.1, kv.2.map (fun pr => (pr.1, normalizeRecord pr.2))))
    ∧ update_paper_links resolve (update_paper_links resolve m).1
        = update_paper_links resolve m := by
  have h1 := update_paper_links_resolved resolve m h
  refine ⟨by rw [h1], by rw [h1], ?_⟩
  have h' : ∀ kv ∈ m.map
        (fun kv => (kv.1, kv.2.map (fun pr => (pr.1, normalizeRecord pr.2)))),
      ∀ pr ∈ kv.2, resolvedRecord pr.2 = true := by
    intro kv hkv pr hpr
    rcases List.mem_map.1 hkv with ⟨kv0, hkv0, he⟩
    rw [← he] at hpr
    rcases List.mem_map.1 hpr with ⟨pr0, hpr0, he2⟩
    rw [← he2]
    exact (resolvedRecord_normalize pr0.2 (h kv0 hkv0 pr0 hpr0)).1
  have h'' : ∀ kv ∈ m.map
        (fun kv => (kv.1, kv.2.map (fun pr => (pr.1, normalizeRecord pr.2)))),
      ∀ pr ∈ kv.2, normalizeRecord pr.2 = pr.2 := by
    intro kv hkv pr hpr
    rcases List.mem_map.1 hkv with ⟨kv0, hkv0, he⟩
    rw [← he] at hpr
    rcases List.mem_map.1 hpr with ⟨pr0, hpr0, he2⟩
    rw [← he2]
    exact (resolvedRecord_normalize pr0.2 (h kv0 hkv0 pr0 hpr0)).2
  have h2 := update_paper_links_resolved resolve _ h'
  rw [h1]
  rw [h2]
  have hfix : (m.map (fun kv => (kv.1, kv.2.map (fun pr => (pr.1, normalizeRecord pr.2))))).map
        (fun kv => (kv.1, kv.2.map (fun pr => (pr.1, normalizeRecord pr.2))))
      = m.map (fun kv => (kv.1, kv.2.map (fun pr => (pr.1, normalizeRecord pr.2)))) := by
    have hpt := List.map_congr_left (l := m.map
        (fun kv => (kv.1, kv.2.map (fun pr => (pr.1, normalizeRecord pr.2)))))
      (f := fun kv => (kv.1, kv.2.map (fun pr => (pr.1, normalizeRecord pr.2))))
      (g := id) ?_
    · rw [hpt, List.map_id]
    · intro kv hkv
      have hinner : kv.2.map (fun pr => (pr.1, normalizeRecord pr.2)) = kv.2 := by
        have hpt2 := List.map_congr_left (l := kv.2)
          (f := fun pr => (pr.1, normalizeRecord pr.2)) (g := id) ?_
        · rw [hpt2, List.map_id]
        · intro pr hpr
          show (pr.1, normalizeRecord pr.2) = pr
          rw [h'' kv hkv pr hpr]
      show (kv.1, kv.2.map (fun pr => (pr.1, normalizeRecord pr.2))) = kv
      rw [hinner]
  rw [hfix]

/-- Witness: a one-topic store whose single record already carries a
resolved link — backfill performs zero resolver invocations. -/
theorem backfill_noop_on_resolved_witness :
    (update_paper_links (fun _ _ _ => none)
      [(strL "slam",
        [(strL "2108.09112",
          strL "|**2021-08-20**|**T**|A et.al.|[2108.09112](u)|**[link](r)**|\n")])]).2
      = 0 :=
  (backfill_noop_on_resolved (fun _ _ _ => none) _ (by decide)).1

theorem pretty_math_eq_some (s : Str) (ms me : Nat)
    (h : dollarSpan s = some (ms, me)) : pretty_math s = mathAssemble s ms me := by
  unfold pretty_math
  rw [h]

theorem lastDollar_eq_none (l : Str) (h : '$' ∉ l) : lastDollar l = none := by
  induction l with
  | nil => rfl
  | cons c rest ih =>
    rw [lastDollar, ih (fun hm => h (List.mem_cons_of_mem c hm))]
    rw [if_neg (fun hc => h (by rw [hc]; exact List.mem_cons_self _ _))]

theorem lastDollar_append (xs ys : Str) (h : '$' ∉ ys) :
    lastDollar (xs ++ '$' :: ys) = some xs.length := by
  induction xs with
  | nil =>
    rw [List.nil_append, lastDollar, lastDollar_eq_none ys h, if_pos rfl]
    rfl
  | cons c rest ih =>
    rw [List.cons_append, lastDollar, ih]
    rfl

theorem dollarSpanAux_append (xs : Str) (h : '$' ∉ xs) :
    ∀ (i : Nat) (rest : Str),
      dollarSpanAux i (xs ++ rest) = dollarSpanAux (i + xs.length) rest := by
  induction xs with
  | nil => intro i rest; simp
  | cons c xs' ih =>
    intro i rest
    have hc : ¬ c = '$' := fun hcc => h (by rw [hcc]; exact List.mem_cons_self _ _)
    rw [List.cons_append, dollarSpanAux, if_neg hc,
      ih (fun hm => h (List.mem_cons_of_mem c hm)) (i + 1) rest]
    have harith : i + 1 + xs'.length = i + (xs'.length + 1) := by omega
    rw [harith]
    rfl

theorem dollarSpan_exact (before inner after : Str) (hb : '$' ∉ before)
    (ha : '$' ∉ after) (hn : ∀ x ∈ inner, x ≠ '\n') :
    dollarSpan (before ++ '$' :: (inner ++ '$' :: after))
      = some (before.length, before.length + inner.length + 2) := by
  unfold dollarSpan
  rw [dollarSpanAux_append before hb 0 _, dollarSpanAux, if_pos rfl]
  have htw : (inner ++ '$' :: after).takeWhile (fun x => decide (x ≠ '\n'))
      = inner ++ '$' :: after.takeWhile (fun x => decide (x ≠ '\n')) := by
    rw [List.takeWhile_append_of_pos (by simpa using hn)]
    simp [List.takeWhile_cons]
  rw [htw]
  have hta : '$' ∉ after.takeWhile (fun x => decide (x ≠ '\n')) :=
    fun hm => ha ((List.takeWhile_sublist _).subset hm)
  rw [lastDollar_append inner _ hta]
  simp

/-- C8 counterexample: on a line with two math spans the greedy match
`\$.*\$` treats everything from the first `$` to the last `$` as one
span, inserting spaces at the outer boundary only — not, as claimed, the
first span alone. -/
theorem pretty_math_counterexample :
    pretty_math (strL "x$a$ and $b$y") = strL "x $a$ and $b$ y"
    ∧ pretty_math_first_span (strL "x$a$ and $b$y") = strL "x $a$ and $b$y"
    ∧ pretty_math (strL "x$a$ and $b$y")
        ≠ pretty_math_first_span (strL "x$a$ and $b$y") := by
  refine ⟨by decide, by decide, by decide⟩

/-- C8 (amended): the normalization affects the maximal span from the
first `$` to the last `$` on the line (one greedy regex match): the
whitespace just inside those outer delimiters is trimmed, and one space
is inserted next to an adjacent non-space, non-`*` character on each side
(no space added when one already exists).  On a line with a single `$`
pair this coincides with the claimed first-span behavior. -/
theorem pretty_math_greedy (before inner after : Str) (hb : '$' ∉ before)
    (ha : '$' ∉ after) (hn : ∀ x ∈ inner, x ≠ '\n') :
    pretty_math (before ++ '$' :: (inner ++ '$' :: after))
      = before
        ++ (match before.getLast? with
            | some c => if c ≠ ' ' ∧ c ≠ '*' then [' '] else []
            | none => [])
        ++ '$' :: (pyStrip inner
        ++ '$' :: ((match after.head? with
            | some c => if c ≠ ' ' ∧ c ≠ '*' then [' '] else []
            | none => []) ++ after)) := by
  rw [pretty_math_eq_some _ _ _ (dollarSpan_exact before inner after hb ha hn)]
  unfold mathAssemble
  have h1 : (before ++ '$' :: (inner ++ '$' :: after)).take before.length = before :=
    List.take_left' rfl
  have h2 : (before ++ '$' :: (inner ++ '$' :: after)).drop
      (before.length + inner.length + 2) = after := by
    have hre : before ++ '$' :: (inner ++ '$' :: after)
        = (before ++ '$' :: (inner ++ ['$'])) ++ after := by
      simp [List.append_assoc]
    rw [hre]
    apply List.drop_left'
    simp
    omega
  have h3 : ((before ++ '$' :: (inner ++ '$' :: after)).drop (before.length + 1)).take
      (before.length + inner.length + 2 - before.length - 2) = inner := by
    have hre : before ++ '$' :: (inner ++ '$' :: after)
        = (before ++ ['$']) ++ (inner ++ '$' :: after) := by
      simp [List.append_assoc]
    have hlen : (before ++ ['$']).length = before.length + 1 := by simp
    rw [hre, List.drop_left' hlen]
    have harith : before.length + inner.length + 2 - before.length - 2 = inner.length := by
      omega
    rw [harith]
    exact List.take_left' rfl
  rw [h1, h2, h3]

/-- Witness for the amended `pretty_math` claim at the spec's own
example: `Result on CIFAR-10 is $x=0.9$great` gains exactly one
separating space on each side of the span. -/
theorem pretty_math_greedy_witness :
    pretty_math (strL "Result on CIFAR-10 is " ++ '$' ::
        (strL "x=0.9" ++ '$' :: strL "great"))
      = strL "Result on CIFAR-10 is "
        ++ (match (strL "Result on CIFAR-10 is ").getLast? with
            | some c => if c ≠ ' ' ∧ c ≠ '*' then [' '] else []
            | none => [])
        ++ '$' :: (pyStrip (strL "x=0.9")
        ++ '$' :: ((match (strL "great").head? with
            | some c => if c ≠ ' ' ∧ c ≠ '*' then [' '] else []
            | none => []) ++ strL "great")) :=
  pretty_math_greedy (strL "Result on CIFAR-10 is ") (strL "x=0.9") (strL "great")
    (by decide) (by decide) (by decide)

theorem sort_papers_keys (papers : Papers) :
    (sort_papers papers).map Prod.fst
      = List.insertionSort (fun a b : Str => a ≥ b) (papers.map Prod.fst) := by
  unfold sort_papers
  have hmem : ∀ k ∈ List.insertionSort (fun a b : Str => a ≥ b) (papers.map Prod.fst),
      k ∈ papers.map Prod.fst :=
    fun k hk => (List.perm_insertionSort _ _).subset hk
  have key : ∀ ks : List Str, (∀ k ∈ ks, k ∈ papers.map Prod.fst) →
      (ks.filterMap (fun k => (getKey papers k).map (fun v => (k, v)))).map Prod.fst
        = ks := by
    intro ks
    induction ks with
    | nil => intro _; rfl
    | cons k ks' ih =>
      intro h
      obtain ⟨v, hv⟩ := getKey_isSome_of_mem papers k (h k (List.mem_cons_self _ _))
      simp only [List.filterMap_cons, hv, Option.map_some']
      rw [List.map_cons, ih (fun q hq => h q (List.mem_cons_of_mem _ hq))]
  exact key _ hmem

theorem sort_papers_sorted (papers : Papers) :
    List.Sorted (fun a b : Str => a ≥ b) ((sort_papers papers).map Prod.fst) := by
  rw [sort_papers_keys]
  haveI h1 : IsTotal Str (fun a b => a ≥ b) := ⟨fun a b => le_total b a⟩
  haveI h2 : IsTrans Str (fun a b => a ≥ b) := ⟨fun _ _ _ hab hbc => le_trans hbc hab⟩
  exact List.sorted_insertionSort _ _

theorem sort_papers_perm (papers : Papers) :
    ((sort_papers papers).map Prod.fst).Perm (papers.map Prod.fst) := by
  rw [sort_papers_keys]
  exact List.perm_insertionSort _ _

theorem sort_papers_lookup (papers : Papers) :
    ∀ k v, (k, v) ∈ sort_papers papers → getKey papers k = some v := by
  intro k v h
  unfold sort_papers at h
  rcases List.mem_filterMap.1 h with ⟨a, _, he⟩
  cases hg : getKey papers a with
  | none =>
    rw [hg] at he
    cases he
  | some w =>
    rw [hg] at he
    simp only [Option.map_some', Option.some.injEq] at he
    cases he
    exact hg

/-- C9: rendering is deterministic — the output depends only on the
store, the options and today's date, never on the previous file contents
(the file is truncated first), so re-rendering the same store is
byte-identical; within a topic the records appear in descending order of
paper identifier (`sort_papers` emits the identifiers sorted descending,
a permutation of the topic's identifiers, each paired with its stored
record); a topic with no records is skipped entirely; and a store with
zero topics renders the headers, badges, usage line and empty
table-of-contents shell only, without error. -/
theorem render_contract (prior prior' : Str) (data : Store) (opts : MdOptions)
    (today : Str) (papers : Papers) (pre post : Store) (kw : Str) :
    json_to_md prior data opts today = json_to_md prior' data opts today
    ∧ List.Sorted (fun a b : Str => a ≥ b) ((sort_papers papers).map Prod.fst)
    ∧ ((sort_papers papers).map Prod.fst).Perm (papers.map Prod.fst)
    ∧ (∀ k v, (k, v) ∈ sort_papers papers → getKey papers k = some v)
    ∧ json_to_md prior (pre ++ (kw, []) :: post) opts today
        = json_to_md prior (pre ++ post) opts today
    ∧ json_to_md prior [] opts today = emptyStoreRender opts today := by
  refine ⟨rfl, sort_papers_sorted papers, sort_papers_perm papers,
    sort_papers_lookup papers, ?_, ?_⟩
  · unfold json_to_md mdToc topicSection
    simp
  · unfold json_to_md emptyStoreRender mdToc
    simp

/-- Witness: rendering a two-record store over two distinct previous file
contents yields the same bytes, and the empty store renders the
header-only document. -/
theorem render_contract_witness :
    json_to_md (strL "stale bytes")
        [(strL "slam", [(strL "2108.09112", strL "|r1|\n")])]
        ⟨false, true, true, true, true⟩ (strL "2025-01-01")
      = json_to_md (strL "")
        [(strL "slam", [(strL "2108.09112", strL "|r1|\n")])]
        ⟨false, true, true, true, true⟩ (strL "2025-01-01")
    ∧ json_to_md (strL "stale bytes") [] ⟨false, true, true, true, true⟩
        (strL "2025-01-01")
      = emptyStoreRender ⟨false, true, true, true, true⟩ (strL "2025-01-01") := by
  have h := render_contract (strL "stale bytes") (strL "")
    [(strL "slam", [(strL "2108.09112", strL "|r1|\n")])]
    ⟨false, true, true, true, true⟩ (strL "2025-01-01") [] [] [] (strL "")
  exact ⟨h.1, h.2.2.2.2.2⟩
